import Mathlib

/-!
# GoCache — verification of the sharded LRU cache engine

A shallow embedding of `gocache`'s cache core (package `cache`: the
`cacheShard` / `ShardedCache` implementation built on `container/list`
and a `map[string]*list.Element`), together with proofs about the
natural-language specification's claims.

Modelling conventions:
* Go's `*list.Element` pointers are modelled by tagging every list node
  with a unique numeric identity (`Elem.id`); the shard allocates fresh
  identities from a counter (`Shard.nextId`).  The Go map
  `map[string]*list.Element` becomes an association list from keys to
  element identities.
* Go `int64` values (`time.Time.UnixNano` deadlines, counter values) are
  modelled as `Int`.  None of the claims under test concern two's
  complement overflow, which the specification declares
  implementation-defined, so the arithmetic is unbounded.
* `time.Now()` is an oracle: operations that read the clock take the
  current instant (`now`, in nanoseconds) as an explicit argument.
* Locks, goroutines and the ticker loop are concurrency plumbing with no
  sequential content; operations are modelled as state transformers.
  `close` of the stop channel is modelled by a Boolean flag, with a
  second `close` producing the Go runtime panic value.
-/

namespace GoCache

/-- The dynamic type of a stored `interface{}` value, restricted to the
variants the program distinguishes: `incr` switches on `int64`, `int`,
`int32` and `string`, with a default branch for anything else.  The
protocol server only ever stores `int64` (a cleanly parsed integer) or
`string`. -/
inductive Value where
  | vint64 (n : Int)
  | vint (n : Int)
  | vint32 (n : Int)
  | vstr (s : String)
  | vother
deriving DecidableEq, Repr

/-- The Go `item` struct: `{ Key string; Value interface{}; Expiration int64 }`.
`expiration = 0` means "never expires". -/
structure Item where
  key : String
  value : Value
  expiration : Int
deriving DecidableEq, Repr

/-- One node of the recency list (`container/list` element).  `id` models
the pointer identity of the `*list.Element`. -/
structure Elem where
  id : Nat
  it : Item
deriving DecidableEq, Repr

/-! ## Association-list model of Go maps -/

/-- `m[k]` (comma-ok lookup). -/
def alGet {α : Type} (m : List (String × α)) (k : String) : Option α :=
  (m.find? (fun p => p.1 == k)).map (·.2)

/-- `delete(m, k)`. -/
def alDel {α : Type} (m : List (String × α)) (k : String) : List (String × α) :=
  m.filter (fun p => p.1 != k)

/-- `m[k] = v`.  (As a map this equals Go's in-place store; the
association list keeps at most one pair per key.) -/
def alPut {α : Type} (m : List (String × α)) (k : String) (v : α) : List (String × α) :=
  (k, v) :: alDel m k

/-! ## Recency-list (`container/list`) operations, by element identity -/

/-- `l.Remove(e)` — removing an element not in the list is a no-op
(matching `container/list`, which checks `e.list == l`). -/
def llRemove (ll : List Elem) (id : Nat) : List Elem :=
  ll.filter (fun e => e.id ≠ id)

/-- `l.MoveToFront(e)` — a no-op when the element is no longer in the
list (matching `container/list`). -/
def llMoveToFront (ll : List Elem) (id : Nat) : List Elem :=
  match ll.find? (fun e => e.id == id) with
  | some e => e :: llRemove ll id
  | none => ll

/-- Mutation of the `item` payload through the element pointer
(`it := elem.Value.(*item); it.Field = …`). -/
def llUpdate (ll : List Elem) (id : Nat) (f : Item → Item) : List Elem :=
  ll.map (fun e => if e.id = id then ⟨e.id, f e.it⟩ else e)

/-! ## The shard -/

/-- The Go `cacheShard`: `items map[string]*list.Element`, `ll *list.List`
(front = most recently used), `maxSize int`, `stopCh chan struct{}`.
The mutex is concurrency plumbing and is not part of the state. -/
structure Shard where
  items : List (String × Nat)
  ll : List Elem
  maxSize : Int
  nextId : Nat
  stopClosed : Bool
deriving DecidableEq, Repr

/-- The eviction check shared verbatim by `set` and the absent branch of
`incr`: `if c.maxSize > 0 && c.ll.Len() > c.maxSize { lru := c.ll.Back();
if lru != nil { c.ll.Remove(lru); delete(c.items, lru.Value.(*item).Key) } }`. -/
def Shard.evictIfNeeded (c : Shard) : Shard :=
  if c.maxSize > 0 ∧ (c.ll.length : Int) > c.maxSize then
    match c.ll.getLast? with
    | some lru => { c with ll := llRemove c.ll lru.id, items := alDel c.items lru.it.key }
    | none => c
  else c

/-- `cacheShard.set`.  Present key: move to front and overwrite value and
expiration through the element pointer.  Absent key: push a fresh
element at the front and record it in the index.  Then the eviction
check runs (it is outside the if/else in the source). -/
def Shard.set (c : Shard) (key : String) (value : Value) (expiration : Int) : Shard :=
  let c1 :=
    match alGet c.items key with
    | some id =>
      { c with ll := llMoveToFront (llUpdate c.ll id (fun it => { it with value := value, expiration := expiration })) id }
    | none =>
      let e : Elem := ⟨c.nextId, ⟨key, value, expiration⟩⟩
      { c with ll := e :: c.ll, items := alPut c.items key e.id, nextId := c.nextId + 1 }
  c1.evictIfNeeded

/-- `cacheShard.get`.  The inner `none` branch is unreachable in any
state the program can build: every pointer stored in `items` was
produced by `PushFront`, and the program removes it from the map
whenever it removes it from the list. -/
def Shard.get (c : Shard) (key : String) (now : Int) : Option Value × Shard :=
  match alGet c.items key with
  | some id =>
    match c.ll.find? (fun e => e.id == id) with
    | some e =>
      if e.it.expiration > 0 ∧ now > e.it.expiration then
        (none, { c with ll := llRemove c.ll id, items := alDel c.items key })
      else
        (some e.it.value, { c with ll := llMoveToFront c.ll id })
    | none => (none, c)
  | none => (none, c)

/-- `cacheShard.delete`: remove from both structures when present;
absence is not an error. -/
def Shard.delete (c : Shard) (key : String) : Shard :=
  match alGet c.items key with
  | some id => { c with ll := llRemove c.ll id, items := alDel c.items key }
  | none => c

/-- `cacheShard.incr`.  Note the order in the source: on a present key
the element is moved to the front *before* the value is inspected, so
the move happens even when the type check fails.  On integer variants
the new value is stored as `int64`.  On an absent key a fresh entry
`{key, delta, 0}` is pushed at the front and the same eviction check as
in `set` runs. -/
def Shard.incr (c : Shard) (key : String) (delta : Int) : Except String Int × Shard :=
  match alGet c.items key with
  | some id =>
    match c.ll.find? (fun e => e.id == id) with
    | some e =>
      let moved := llMoveToFront c.ll id
      match e.it.value with
      | .vint64 v | .vint v | .vint32 v =>
        let newValue := v + delta
        (.ok newValue, { c with ll := llUpdate moved id (fun it => { it with value := .vint64 newValue }) })
      | .vstr _ => (.error "value is not an integer", { c with ll := moved })
      | .vother => (.error "value is not a supported number type", { c with ll := moved })
    | none => (.error "value is not a supported number type", c)
  | none =>
    let e : Elem := ⟨c.nextId, ⟨key, .vint64 delta, 0⟩⟩
    let c1 := { c with ll := e :: c.ll, items := alPut c.items key e.id, nextId := c.nextId + 1 }
    (.ok delta, c1.evictIfNeeded)

/-- `cacheShard.deleteExpired`: first pass collects the keys whose
expiration is positive and strictly before `now`; second pass removes
each (re-checking presence, as the source does). -/
def Shard.deleteExpired (c : Shard) (now : Int) : Shard :=
  let keysToDelete := c.items.filterMap (fun p =>
    match c.ll.find? (fun e => e.id == p.2) with
    | some e => if e.it.expiration > 0 ∧ e.it.expiration < now then some p.1 else none
    | none => none)
  keysToDelete.foldl Shard.delete c

/-- `cacheShard.stop`: `close(c.stopCh)`.  Closing an already-closed
channel panics in the Go runtime; the panic is modelled as an error
value. -/
def Shard.stop (c : Shard) : Except String Shard :=
  if c.stopClosed then .error "close of closed channel"
  else .ok { c with stopClosed := true }

/-- A freshly constructed shard (`NewShardedCache` loop body). -/
def emptyShard (maxSize : Int) : Shard :=
  ⟨[], [], maxSize, 0, false⟩

/-! ## Hashing and the router -/

/-- UTF-8 encoding of one character (what `[]byte(key)` produces). -/
def utf8Bytes (c : Char) : List Nat :=
  let n := c.toNat
  if n < 0x80 then [n]
  else if n < 0x800 then [0xC0 ||| (n >>> 6), 0x80 ||| (n &&& 0x3F)]
  else if n < 0x10000 then
    [0xE0 ||| (n >>> 12), 0x80 ||| ((n >>> 6) &&& 0x3F), 0x80 ||| (n &&& 0x3F)]
  else
    [0xF0 ||| (n >>> 18), 0x80 ||| ((n >>> 12) &&& 0x3F),
     0x80 ||| ((n >>> 6) &&& 0x3F), 0x80 ||| (n &&& 0x3F)]

/-- The bytes of a key. -/
def stringBytes (s : String) : List Nat :=
  (s.data.map utf8Bytes).flatten

/-- FNV-1a, 32 bits (`fnv.New32a(); Write(bytes); Sum32()`). -/
def fnv1a32 (bytes : List Nat) : Nat :=
  bytes.foldl (fun h b => ((h ^^^ b) * 16777619) % 4294967296) 2166136261

/-- The Go `ShardedCache`: an ordered array of shards. -/
structure ShardedCache where
  shards : List Shard
  shardCount : Nat
deriving DecidableEq, Repr

/-- `getShard`'s index computation: FNV-1a of the key, mod the shard
count. -/
def ShardedCache.shardIndexOf (sc : ShardedCache) (key : String) : Nat :=
  fnv1a32 (stringBytes key) % sc.shardCount

/-- `NewShardedCache(shardCount, totalMaxSize, cleanupInterval)`.  The
per-shard capacity is `totalMaxSize / shardCount` (Go integer division,
truncating; both operands are positive where it is reached), lower
bounded at 1; if `totalMaxSize ≤ 0` it is 1.  The cleanup goroutines
are the expirer plumbing and have no state here. -/
def NewShardedCache (shardCount : Nat) (totalMaxSize : Int) : ShardedCache :=
  let shardMaxCount : Int :=
    if totalMaxSize > 0 then
      let q := totalMaxSize.tdiv (shardCount : Int)
      if q < 1 then 1 else q
    else 1
  ⟨List.replicate shardCount (emptyShard shardMaxCount), shardCount⟩

/-- `ShardedCache.Set`: the router computes the absolute expiration from
the TTL (`ttl > 0 ⇒ now + ttl`, else `0`) and forwards to the owning
shard's `set`. -/
def ShardedCache.Set (sc : ShardedCache) (key : String) (value : Value) (ttl : Int) (now : Int) : ShardedCache :=
  let expiration : Int := if ttl > 0 then now + ttl else 0
  let i := sc.shardIndexOf key
  match sc.shards[i]? with
  | some sh => { sc with shards := sc.shards.set i (sh.set key value expiration) }
  | none => sc

/-- `ShardedCache.Get`. -/
def ShardedCache.Get (sc : ShardedCache) (key : String) (now : Int) : Option Value × ShardedCache :=
  let i := sc.shardIndexOf key
  match sc.shards[i]? with
  | some sh =>
    let r := sh.get key now
    (r.1, { sc with shards := sc.shards.set i r.2 })
  | none => (none, sc)

/-- `ShardedCache.Delete`. -/
def ShardedCache.Delete (sc : ShardedCache) (key : String) : ShardedCache :=
  let i := sc.shardIndexOf key
  match sc.shards[i]? with
  | some sh => { sc with shards := sc.shards.set i (sh.delete key) }
  | none => sc

/-- `ShardedCache.Incr`: forwards `incr(key, 1)`. -/
def ShardedCache.Incr (sc : ShardedCache) (key : String) : Except String Int × ShardedCache :=
  let i := sc.shardIndexOf key
  match sc.shards[i]? with
  | some sh =>
    let r := sh.incr key 1
    (r.1, { sc with shards := sc.shards.set i r.2 })
  | none => (.error "value is not a supported number type", sc)

/-- `ShardedCache.Decr`: forwards `incr(key, -1)`. -/
def ShardedCache.Decr (sc : ShardedCache) (key : String) : Except String Int × ShardedCache :=
  let i := sc.shardIndexOf key
  match sc.shards[i]? with
  | some sh =>
    let r := sh.incr key (-1)
    (r.1, { sc with shards := sc.shards.set i r.2 })
  | none => (.error "value is not a supported number type", sc)

/-- `ShardedCache.Stop`: `for _, shard := range sc.shards { shard.stop() }`.
A panic in one `stop` call aborts the loop and propagates. -/
def ShardedCache.Stop (sc : ShardedCache) : Except String ShardedCache := do
  let shards ← sc.shards.mapM Shard.stop
  pure { sc with shards := shards }

/-! ## The snapshot codec

The program serializes `map[string]*item` with `encoding/gob` from the
Go standard library.  `item.Value` is an `interface{}` field, and gob
transmits an interface value under its concrete type's registered name:
encoding fails with a type-registration error when the concrete type
was never passed to `gob.Register`.  This repository contains no
`gob.Register` call, so the only concrete types that encode are the
ones `encoding/gob` pre-registers itself in `registerBasics`
(`encoding/gob/type.go`): `int`, `int8`, `int16`, `int32`, `int64`,
the unsigned and floating variants, `bool`, `string`, and slices of
these.  All of the program's numeric variants (`int64` from `incr` and
the protocol's integer `SET`s, `int`, `int32`) and `string` are in that
table; a caller-supplied value of any other concrete type (`vother`)
makes `Encoder.Encode` — and hence `SaveToFile` — fail.

The wire format itself is modelled by a concrete tag-preserving token
encoding with a total decoder, so that the round-trip law the
specification demands of the encoding is a real theorem rather than an
assumption, while the encoder carries gob's error path in an `Except`.
A "file" is the token stream. -/

/-- Whether a value's concrete type is in `encoding/gob`'s registration
table.  With no `gob.Register` call in the repository the table is
exactly the `registerBasics` defaults, which include `int64`, `int`,
`int32` and `string` but no other (program-defined) concrete type. -/
def gobRegistered : Value → Bool
  | .vint64 _ => true
  | .vint _ => true
  | .vint32 _ => true
  | .vstr _ => true
  | .vother => false

/-- Encode an `int64` field: sign tag then magnitude. -/
def encodeInt (i : Int) : List Nat :=
  if i < 0 then [1, (-i).toNat] else [0, i.toNat]

/-- Decode an `int64` field. -/
def decodeInt : List Nat → Option (Int × List Nat)
  | 0 :: m :: r => some ((m : Int), r)
  | 1 :: m :: r => some (-(m : Int), r)
  | _ => none

/-- Encode a string: length then character codes. -/
def encodeString (s : String) : List Nat :=
  s.length :: s.data.map Char.toNat

/-- Decode `n` character codes. -/
def decodeChars : Nat → List Nat → Option (List Char × List Nat)
  | 0, r => some ([], r)
  | n + 1, c :: r =>
    match decodeChars n r with
    | some (cs, r') => some (Char.ofNat c :: cs, r')
    | none => none
  | _ + 1, [] => none

/-- Decode a string. -/
def decodeString : List Nat → Option (String × List Nat)
  | n :: r =>
    match decodeChars n r with
    | some (cs, r') => some (String.mk cs, r')
    | none => none
  | [] => none

/-- Encode a value with its variant tag.  An interface value whose
concrete type is not registered makes gob fail; that error path of
`Encoder.Encode` is carried in the `Except`. -/
def encodeValue : Value → Except String (List Nat)
  | .vint64 n => .ok (0 :: encodeInt n)
  | .vint n => .ok (1 :: encodeInt n)
  | .vint32 n => .ok (2 :: encodeInt n)
  | .vstr s => .ok (3 :: encodeString s)
  | .vother => .error "type not registered for interface"

/-- Decode a value.  A dump can only name registered concrete types, so
there is no tag for anything else. -/
def decodeValue : List Nat → Option (Value × List Nat)
  | 0 :: r => (decodeInt r).map (fun p => (.vint64 p.1, p.2))
  | 1 :: r => (decodeInt r).map (fun p => (.vint p.1, p.2))
  | 2 :: r => (decodeInt r).map (fun p => (.vint32 p.1, p.2))
  | 3 :: r => (decodeString r).map (fun p => (.vstr p.1, p.2))
  | _ => none

/-- Encode an `item`; fails when its value's concrete type is
unregistered. -/
def encodeItem (it : Item) : Except String (List Nat) :=
  match encodeValue it.value with
  | .ok vb => .ok (encodeString it.key ++ vb ++ encodeInt it.expiration)
  | .error e => .error e

/-- Decode an `item`. -/
def decodeItem (l : List Nat) : Option (Item × List Nat) :=
  match decodeString l with
  | some (k, r1) =>
    match decodeValue r1 with
    | some (v, r2) =>
      match decodeInt r2 with
      | some (x, r3) => some (⟨k, v, x⟩, r3)
      | none => none
    | none => none
  | none => none

/-- Encode the map entries in order; the first unregistered value
aborts the encoding with its error, as `Encoder.Encode` does. -/
def encodeEntries : List (String × Item) → Except String (List Nat)
  | [] => .ok []
  | p :: t =>
    match encodeItem p.2 with
    | .ok ib =>
      match encodeEntries t with
      | .ok tb => .ok (encodeString p.1 ++ ib ++ tb)
      | .error e => .error e
    | .error e => .error e

/-- Encode the map as an entry count followed by the entries. -/
def encodeDump (m : List (String × Item)) : Except String (List Nat) :=
  match encodeEntries m with
  | .ok eb => .ok (m.length :: eb)
  | .error e => .error e

/-- Decode `n` map entries. -/
def decodeEntries : Nat → List Nat → Option (List (String × Item) × List Nat)
  | 0, r => some ([], r)
  | n + 1, r =>
    match decodeString r with
    | some (k, r1) =>
      match decodeItem r1 with
      | some (it, r2) =>
        match decodeEntries n r2 with
        | some (m, r3) => some ((k, it) :: m, r3)
        | none => none
      | none => none
    | none => none

/-- Decode the map; the whole file must be consumed. -/
def decodeDump (l : List Nat) : Option (List (String × Item)) :=
  match l with
  | n :: r =>
    match decodeEntries n r with
    | some (m, []) => some m
    | _ => none
  | [] => none

/-- The in-memory collection pass of `SaveToFile`: visit the shards in
index order, iterate each shard's `items` map under its read lock, and
accumulate `itemsToSave[it.Key] = it` into one mapping.  (The inner
`none` branch cannot fire on program-built states: map pointers always
dereference to a live element.) -/
def ShardedCache.snapshotItems (sc : ShardedCache) : List (String × Item) :=
  sc.shards.foldl (fun acc sh =>
    sh.items.foldl (fun acc p =>
      match sh.ll.find? (fun e => e.id == p.2) with
      | some e => alPut acc e.it.key e.it
      | none => acc) acc) []

/-- `ShardedCache.SaveToFile`: gob-encode the collected mapping.  The
file-system write is I/O plumbing; on success the produced file
contents are returned, and when some stored value's concrete type is
unregistered the gob error is returned instead (the repository calls
no `gob.Register`, so only the pre-registered basics encode). -/
def ShardedCache.SaveToFile (sc : ShardedCache) : Except String (List Nat) :=
  encodeDump sc.snapshotItems

/-- The loop body of `LoadFromFile`: for one decoded item, take
`key := it.Key`, pick the owning shard by hash, push the item at the
front of that shard's list and record the element in its index.  There
is no capacity check and no presence check in the source. -/
def ShardedCache.loadStep (sc : ShardedCache) (p : String × Item) : ShardedCache :=
  let it := p.2
  let key := it.key
  let i := sc.shardIndexOf key
  match sc.shards[i]? with
  | some sh =>
    let e : Elem := ⟨sh.nextId, it⟩
    let sh' : Shard :=
      { sh with ll := e :: sh.ll, items := alPut sh.items key e.id, nextId := sh.nextId + 1 }
    { sc with shards := sc.shards.set i sh' }
  | none => sc

/-- The redistribution pass of `LoadFromFile`. -/
def ShardedCache.loadItems (sc : ShardedCache) (m : List (String × Item)) : ShardedCache :=
  m.foldl ShardedCache.loadStep sc

/-- `ShardedCache.LoadFromFile`: decode the file and redistribute.
Decoding failure (or a missing file, not modelled) is reported as
`none`. -/
def ShardedCache.LoadFromFile (sc : ShardedCache) (file : List Nat) : Option ShardedCache :=
  (decodeDump file).map sc.loadItems

/-! ## Association-list lemmas -/

theorem alGet_nil {α : Type} {k : String} : alGet ([] : List (String × α)) k = none := rfl

theorem alGet_cons {α : Type} {p : String × α} {t : List (String × α)} {k : String} :
    alGet (p :: t) k = if p.1 = k then some p.2 else alGet t k := by
  by_cases h : p.1 = k
  · simp [alGet, List.find?_cons_of_pos, h]
  · rw [if_neg h]
    have : (p.1 == k) = false := by simp [h]
    simp [alGet, List.find?_cons, this]

theorem alDel_cons {α : Type} {p : String × α} {t : List (String × α)} {k : String} :
    alDel (p :: t) k = if p.1 = k then alDel t k else p :: alDel t k := by
  by_cases h : p.1 = k
  · have : (p.1 != k) = false := by simp [bne_iff_ne, h]
    simp [alDel, List.filter_cons, this, h]
  · have : (p.1 != k) = true := by simp [bne_iff_ne, h]
    simp [alDel, List.filter_cons, this, h]

theorem alGet_eq_none {α : Type} {m : List (String × α)} {k : String} :
    alGet m k = none ↔ ∀ p ∈ m, p.1 ≠ k := by
  constructor
  · intro h p hp
    simp only [alGet, Option.map_eq_none', List.find?_eq_none] at h
    have := h p hp
    simpa using this
  · intro h
    simp only [alGet, Option.map_eq_none', List.find?_eq_none]
    intro p hp
    simpa using h p hp

theorem alGet_mem {α : Type} {m : List (String × α)} {k : String} {v : α}
    (h : alGet m k = some v) : (k, v) ∈ m := by
  simp only [alGet, Option.map_eq_some'] at h
  obtain ⟨p, hp, hv⟩ := h
  have hk := List.find?_some hp
  have hm := List.mem_of_find?_eq_some hp
  simp only [beq_iff_eq] at hk
  cases p
  simp_all

theorem alGet_alDel_self {α : Type} (m : List (String × α)) (k : String) :
    alGet (alDel m k) k = none := by
  rw [alGet_eq_none]
  intro p hp
  have := List.of_mem_filter hp
  simpa [bne_iff_ne] using this

theorem alGet_alDel_ne {α : Type} (m : List (String × α)) {k k' : String}
    (h : k' ≠ k) : alGet (alDel m k) k' = alGet m k' := by
  induction m with
  | nil => rfl
  | cons p t ih =>
    rw [alDel_cons]
    by_cases hk : p.1 = k
    · rw [if_pos hk, ih, alGet_cons, if_neg (by rw [hk]; exact fun hh => h hh.symm)]
    · rw [if_neg hk, alGet_cons, alGet_cons, ih]

theorem alDel_of_not_mem {α : Type} {m : List (String × α)} {k : String}
    (h : ∀ p ∈ m, p.1 ≠ k) : alDel m k = m := by
  rw [alDel, List.filter_eq_self]
  intro p hp
  simp [bne_iff_ne, h p hp]

theorem alGet_alPut_self {α : Type} (m : List (String × α)) (k : String) (v : α) :
    alGet (alPut m k v) k = some v := by
  simp [alPut, alGet, List.find?_cons]

theorem alGet_alPut_ne {α : Type} (m : List (String × α)) {k k' : String} (v : α)
    (h : k' ≠ k) : alGet (alPut m k v) k' = alGet m k' := by
  have : (k == k') = false := by simp [h.symm]
  simp only [alPut, alGet, List.find?_cons, this]
  rw [← alGet, ← alGet, alGet_alDel_ne _ h]

theorem alDel_keys_nodup {α : Type} {m : List (String × α)} (k : String)
    (h : (m.map Prod.fst).Nodup) : ((alDel m k).map Prod.fst).Nodup := by
  have hs : List.Sublist (alDel m k) m := List.filter_sublist m
  exact (hs.map Prod.fst).nodup h

theorem alPut_keys_nodup {α : Type} {m : List (String × α)} (k : String) (v : α)
    (h : (m.map Prod.fst).Nodup) : ((alPut m k v).map Prod.fst).Nodup := by
  simp only [alPut, List.map_cons, List.nodup_cons]
  refine ⟨?_, alDel_keys_nodup k h⟩
  intro hmem
  simp only [List.mem_map] at hmem
  obtain ⟨p, hp, hk⟩ := hmem
  have := List.of_mem_filter hp
  simp only [bne_iff_ne, ne_eq] at this
  exact this hk

theorem alDel_length_of_present {α : Type} {m : List (String × α)} {k : String} {v : α}
    (hd : (m.map Prod.fst).Nodup) (h : alGet m k = some v) :
    (alDel m k).length + 1 = m.length := by
  induction m with
  | nil => simp [alGet] at h
  | cons p t ih =>
    simp only [List.map_cons, List.nodup_cons] at hd
    by_cases hk : p.1 = k
    · rw [alDel_cons, if_pos hk, alDel_of_not_mem, List.length_cons]
      intro q hq hqk
      exact hd.1 (by exact List.mem_map.mpr ⟨q, hq, by rw [hqk, hk]⟩)
    · rw [alGet_cons, if_neg hk] at h
      rw [alDel_cons, if_neg hk, List.length_cons, List.length_cons]
      rw [ih hd.2 h]

/-! ## Recency-list lemmas -/

theorem mem_llRemove {ll : List Elem} {id : Nat} {e : Elem} :
    e ∈ llRemove ll id ↔ e ∈ ll ∧ e.id ≠ id := by
  simp [llRemove, List.mem_filter]

theorem llRemove_of_not_mem {ll : List Elem} {id : Nat}
    (h : ∀ e ∈ ll, e.id ≠ id) : llRemove ll id = ll := by
  rw [llRemove, List.filter_eq_self]
  intro e he
  simp [h e he]

theorem llRemove_sublist (ll : List Elem) (id : Nat) : List.Sublist (llRemove ll id) ll :=
  List.filter_sublist ll

/-- With pairwise-distinct identities, removing an element's identity and
putting the element back in front is a permutation. -/
theorem cons_llRemove_perm {ll : List Elem} {e : Elem}
    (hd : (ll.map Elem.id).Nodup) (he : e ∈ ll) :
    (e :: llRemove ll e.id).Perm ll := by
  induction ll with
  | nil => cases he
  | cons a t ih =>
    simp only [List.map_cons, List.nodup_cons] at hd
    rcases List.mem_cons.mp he with rfl | het
    · have : llRemove (e :: t) e.id = llRemove t e.id := by
        simp [llRemove, List.filter_cons]
      rw [this, llRemove_of_not_mem]
      intro x hx hxe
      exact hd.1 (List.mem_map.mpr ⟨x, hx, hxe⟩)
    · have hae : a.id ≠ e.id := by
        intro hcontra
        exact hd.1 (List.mem_map.mpr ⟨e, het, hcontra.symm⟩)
      have hr : llRemove (a :: t) e.id = a :: llRemove t e.id := by
        simp [llRemove, List.filter_cons, hae]
      rw [hr]
      exact (List.Perm.swap a e _).trans ((ih hd.2 het).cons a)

/-- With pairwise-distinct identities, a member is what `find?` by its
identity returns. -/
theorem find?_eq_of_mem_nodup {ll : List Elem} {e : Elem}
    (hd : (ll.map Elem.id).Nodup) (he : e ∈ ll) :
    ll.find? (fun x => x.id == e.id) = some e := by
  induction ll with
  | nil => cases he
  | cons a t ih =>
    simp only [List.map_cons, List.nodup_cons] at hd
    rcases List.mem_cons.mp he with rfl | het
    · rw [List.find?_cons_of_pos]
      simp
    · have hae : a.id ≠ e.id := by
        intro hcontra
        exact hd.1 (List.mem_map.mpr ⟨e, het, hcontra.symm⟩)
      rw [List.find?_cons_of_neg]
      · exact ih hd.2 het
      · simp [hae]

theorem llMoveToFront_perm {ll : List Elem} {id : Nat}
    (hd : (ll.map Elem.id).Nodup) : (llMoveToFront ll id).Perm ll := by
  rw [llMoveToFront]
  cases hfind : ll.find? (fun e => e.id == id) with
  | none => exact List.Perm.refl ll
  | some e =>
    have he := List.mem_of_find?_eq_some hfind
    have hid : e.id = id := by simpa using List.find?_some hfind
    rw [← hid]
    exact cons_llRemove_perm hd he

theorem mem_llMoveToFront {ll : List Elem} {id : Nat} {e : Elem} :
    e ∈ llMoveToFront ll id → e ∈ ll := by
  rw [llMoveToFront]
  cases hfind : ll.find? (fun x => x.id == id) with
  | none => exact fun h => h
  | some a =>
    intro h
    rcases List.mem_cons.mp h with rfl | h2
    · exact List.mem_of_find?_eq_some hfind
    · exact (mem_llRemove.mp h2).1

theorem llUpdate_map_id (ll : List Elem) (id : Nat) (f : Item → Item) :
    (llUpdate ll id f).map Elem.id = ll.map Elem.id := by
  simp only [llUpdate, List.map_map]
  apply List.map_congr_left
  intro e _
  by_cases h : e.id = id <;> simp [h]

theorem mem_llUpdate {ll : List Elem} {id : Nat} {f : Item → Item} {e : Elem}
    (h : e ∈ llUpdate ll id f) :
    (e ∈ ll ∧ e.id ≠ id) ∨ ∃ e0 ∈ ll, e0.id = id ∧ e = ⟨id, f e0.it⟩ := by
  simp only [llUpdate, List.mem_map] at h
  obtain ⟨e0, he0, heq⟩ := h
  by_cases hid : e0.id = id
  · right
    refine ⟨e0, he0, hid, ?_⟩
    rw [← heq]
    simp [hid]
  · left
    simp only [hid, if_false] at heq
    rw [← heq]
    exact ⟨he0, hid⟩

theorem llUpdate_keys (ll : List Elem) (id : Nat) (f : Item → Item)
    (hf : ∀ it, (f it).key = it.key) :
    (llUpdate ll id f).map (fun e => e.it.key) = ll.map (fun e => e.it.key) := by
  simp only [llUpdate, List.map_map]
  apply List.map_congr_left
  intro e _
  by_cases h : e.id = id <;> simp [h, hf]

theorem mem_llUpdate_of_mem {ll : List Elem} {id : Nat} {f : Item → Item} {e : Elem}
    (h : e ∈ ll) :
    (if e.id = id then (⟨id, f e.it⟩ : Elem) else e) ∈ llUpdate ll id f := by
  simp only [llUpdate, List.mem_map]
  refine ⟨e, h, ?_⟩
  by_cases hid : e.id = id <;> simp [hid]

theorem elem_id_inj {ll : List Elem} (hd : (ll.map Elem.id).Nodup)
    {e1 e2 : Elem} (h1 : e1 ∈ ll) (h2 : e2 ∈ ll) (h : e1.id = e2.id) : e1 = e2 := by
  induction ll with
  | nil => cases h1
  | cons a t ih =>
    simp only [List.map_cons, List.nodup_cons] at hd
    rcases List.mem_cons.mp h1 with rfl | h1t
    · rcases List.mem_cons.mp h2 with rfl | h2t
      · rfl
      · exact absurd (List.mem_map.mpr ⟨e2, h2t, h.symm⟩) hd.1
    · rcases List.mem_cons.mp h2 with rfl | h2t
      · exact absurd (List.mem_map.mpr ⟨e1, h1t, h⟩) hd.1
      · exact ih hd.2 h1t h2t

theorem getLast?_mem {α : Type} {l : List α} {a : α} (h : l.getLast? = some a) : a ∈ l := by
  obtain ⟨hne, rfl⟩ := @List.mem_getLast?_eq_getLast _ l a (by simp [h])
  exact List.getLast_mem hne

theorem llRemove_length_of_mem {ll : List Elem} {e : Elem}
    (hd : (ll.map Elem.id).Nodup) (he : e ∈ ll) :
    (llRemove ll e.id).length + 1 = ll.length := by
  have := (cons_llRemove_perm hd he).length_eq
  simpa using this

/-! ## The shard invariant

`WF` packages the specification's per-shard invariants I1 and I2 plus
the bookkeeping facts that make them inductive: element identities and
keys are pairwise distinct in the recency list, identities are below the
allocation counter, the index has pairwise-distinct keys, and index and
list point at each other. -/

def WF (c : Shard) : Prop :=
  (c.ll.map Elem.id).Nodup ∧
  (c.ll.map (fun e => e.it.key)).Nodup ∧
  (∀ e ∈ c.ll, e.id < c.nextId) ∧
  (c.items.map Prod.fst).Nodup ∧
  (∀ p ∈ c.items, ∃ e ∈ c.ll, e.id = p.2 ∧ e.it.key = p.1) ∧
  (∀ e ∈ c.ll, alGet c.items e.it.key = some e.id) ∧
  c.items.length = c.ll.length

instance (c : Shard) : Decidable (WF c) := by
  unfold WF
  infer_instance

theorem WF_empty (ms : Int) : WF (emptyShard ms) := by
  refine ⟨?_, ?_, ?_, ?_, ?_, ?_, ?_⟩ <;> simp [emptyShard, alGet]

/-- Under `WF`, an index hit names a unique live element, and `find?` by
its identity returns exactly that element. -/
theorem WF_lookup {c : Shard} (hwf : WF c) {k : String} {id : Nat}
    (h : alGet c.items k = some id) :
    ∃ e ∈ c.ll, e.id = id ∧ e.it.key = k ∧ c.ll.find? (fun x => x.id == id) = some e := by
  obtain ⟨hids, _, _, _, hitl, _, _⟩ := hwf
  obtain ⟨e, he, heid, hek⟩ := hitl (k, id) (alGet_mem h)
  have heid' : e.id = id := heid
  have hek' : e.it.key = k := hek
  refine ⟨e, he, heid', hek', ?_⟩
  rw [← heid']
  exact find?_eq_of_mem_nodup hids he

/-- The coupled two-structure removal (`ll.Remove(elem); delete(items, key)`)
performed by `get` (expired), `delete`, `deleteExpired` and the eviction
branch preserves the invariant. -/
theorem WF_removeState {c : Shard} (hwf : WF c) {k : String} {id : Nat}
    (h : alGet c.items k = some id) :
    WF { c with ll := llRemove c.ll id, items := alDel c.items k } := by
  obtain ⟨hids, hkeys, hlt, hik, hitl, hlti, hlen⟩ := hwf
  obtain ⟨ek, hek, hekid0, hekk0⟩ := hitl (k, id) (alGet_mem h)
  have hekid : ek.id = id := hekid0
  have hekk : ek.it.key = k := hekk0
  refine ⟨?_, ?_, ?_, ?_, ?_, ?_, ?_⟩
  · exact ((llRemove_sublist c.ll id).map Elem.id).nodup hids
  · exact ((llRemove_sublist c.ll id).map _).nodup hkeys
  · intro e he
    exact hlt e (mem_llRemove.mp he).1
  · exact alDel_keys_nodup k hik
  · intro p hp
    have hpm : p ∈ c.items := List.mem_of_mem_filter hp
    have hpk : p.1 ≠ k := by
      have := List.of_mem_filter hp
      simpa [bne_iff_ne] using this
    obtain ⟨e, he, heid, hekey⟩ := hitl p hpm
    refine ⟨e, mem_llRemove.mpr ⟨he, ?_⟩, heid, hekey⟩
    intro hcontra
    have : e = ek := elem_id_inj hids he hek (by rw [hcontra, hekid])
    rw [this] at hekey
    exact hpk (by rw [← hekey, hekk])
  · intro e he
    obtain ⟨hem, hene⟩ := mem_llRemove.mp he
    have hkne : e.it.key ≠ k := by
      intro hcontra
      have h1 := hlti e hem
      rw [hcontra, h] at h1
      injection h1 with hv
      exact hene hv.symm
    rw [alGet_alDel_ne _ hkne]
    exact hlti e hem
  · show (alDel c.items k).length = (llRemove c.ll id).length
    have h1 := alDel_length_of_present hik h
    have h2 : (llRemove c.ll ek.id).length + 1 = c.ll.length :=
      llRemove_length_of_mem hids hek
    rw [hekid] at h2
    omega

theorem WF_evict {c : Shard} (hwf : WF c) : WF c.evictIfNeeded := by
  rw [Shard.evictIfNeeded]
  split
  · cases hlast : c.ll.getLast? with
    | none => exact hwf
    | some lru =>
      have hmem := getLast?_mem hlast
      have hget := hwf.2.2.2.2.2.1 lru hmem
      exact WF_removeState hwf hget
  · exact hwf

theorem WF_delete {c : Shard} (hwf : WF c) (k : String) : WF (c.delete k) := by
  cases h : alGet c.items k with
  | none => simpa [Shard.delete, h] using hwf
  | some id =>
    have := WF_removeState hwf h
    simpa [Shard.delete, h] using this

/-- A permutation of the recency list with unchanged index preserves the
invariant. -/
theorem WF_of_perm {c : Shard} (hwf : WF c) {ll' : List Elem}
    (hperm : ll'.Perm c.ll) : WF { c with ll := ll' } := by
  obtain ⟨hids, hkeys, hlt, hik, hitl, hlti, hlen⟩ := hwf
  refine ⟨?_, ?_, ?_, hik, ?_, ?_, ?_⟩
  · exact (hperm.map Elem.id).symm.nodup hids
  · exact (hperm.map _).symm.nodup hkeys
  · intro e he
    exact hlt e (hperm.mem_iff.mp he)
  · intro p hp
    obtain ⟨e, he, h1, h2⟩ := hitl p hp
    exact ⟨e, hperm.mem_iff.mpr he, h1, h2⟩
  · intro e he
    exact hlti e (hperm.mem_iff.mp he)
  · rw [hlen, hperm.length_eq]

theorem WF_get {c : Shard} (hwf : WF c) (k : String) (now : Int) :
    WF (c.get k now).2 := by
  cases h : alGet c.items k with
  | none => simpa [Shard.get, h] using hwf
  | some id =>
    cases hf : c.ll.find? (fun e => e.id == id) with
    | none => simpa [Shard.get, h, hf] using hwf
    | some e =>
      by_cases hexp : e.it.expiration > 0 ∧ now > e.it.expiration
      · have := WF_removeState hwf h
        simpa [Shard.get, h, hf, hexp] using this
      · have := WF_of_perm hwf (@llMoveToFront_perm c.ll id hwf.1)
        simpa [Shard.get, h, hf, hexp] using this

theorem alPut_absent {α : Type} {m : List (String × α)} {k : String} (v : α)
    (h : alGet m k = none) : alPut m k v = (k, v) :: m := by
  rw [alPut, alDel_of_not_mem (alGet_eq_none.mp h)]

/-- Pushing a fresh element for an absent key preserves the invariant
(the common core of `set`'s and `incr`'s absent branches and of the
per-entry load step). -/
theorem WF_pushFresh {c : Shard} (hwf : WF c) {k : String} {it : Item}
    (h : alGet c.items k = none) (hit : it.key = k) :
    WF { c with ll := ⟨c.nextId, it⟩ :: c.ll,
                items := (k, c.nextId) :: c.items,
                nextId := c.nextId + 1 } := by
  obtain ⟨hids, hkeys, hlt, hik, hitl, hlti, hlen⟩ := hwf
  have hknotll : ∀ e ∈ c.ll, e.it.key ≠ k := by
    intro e he hcontra
    have := hlti e he
    rw [hcontra, h] at this
    cases this
  refine ⟨?_, ?_, ?_, ?_, ?_, ?_, ?_⟩
  · simp only [List.map_cons, List.nodup_cons]
    refine ⟨?_, hids⟩
    intro hmem
    obtain ⟨e, he, heid⟩ := List.mem_map.mp hmem
    exact absurd heid (Nat.ne_of_lt (hlt e he))
  · simp only [List.map_cons, List.nodup_cons]
    refine ⟨?_, hkeys⟩
    intro hmem
    obtain ⟨e, he, hek⟩ := List.mem_map.mp hmem
    exact hknotll e he (by rw [hek, hit])
  · intro e he
    rcases List.mem_cons.mp he with rfl | het
    · exact Nat.lt_succ_self _
    · exact Nat.lt_succ_of_lt (hlt e het)
  · simp only [List.map_cons, List.nodup_cons]
    refine ⟨?_, hik⟩
    intro hmem
    obtain ⟨p, hp, hpk⟩ := List.mem_map.mp hmem
    exact alGet_eq_none.mp h p hp hpk
  · intro p hp
    rcases List.mem_cons.mp hp with rfl | hpt
    · exact ⟨⟨c.nextId, it⟩, List.mem_cons_self _ _, rfl, hit⟩
    · obtain ⟨e, he, h1, h2⟩ := hitl p hpt
      exact ⟨e, List.mem_cons_of_mem _ he, h1, h2⟩
  · intro e he
    rcases List.mem_cons.mp he with rfl | het
    · show alGet ((k, c.nextId) :: c.items) it.key = some c.nextId
      rw [alGet_cons, if_pos hit.symm]
    · show alGet ((k, c.nextId) :: c.items) e.it.key = some e.id
      rw [alGet_cons, if_neg ?_]
      · exact hlti e het
      · intro hcontra
        exact hknotll e het hcontra.symm
  · show c.items.length + 1 = c.ll.length + 1
    omega

/-- Update-then-move (the order is immaterial for the invariant):
`set`'s present branch. -/
theorem WF_updateMove {c : Shard} (hwf : WF c) {id : Nat} {f : Item → Item}
    (hf : ∀ it, (f it).key = it.key) :
    WF { c with ll := llMoveToFront (llUpdate c.ll id f) id } := by
  obtain ⟨hids, hkeys, hlt, hik, hitl, hlti, hlen⟩ := hwf
  set u := llUpdate c.ll id f with hu
  have hu_ids : u.map Elem.id = c.ll.map Elem.id := llUpdate_map_id c.ll id f
  have hu_keys : u.map (fun e => e.it.key) = c.ll.map (fun e => e.it.key) :=
    llUpdate_keys c.ll id f hf
  have hu_nodup : (u.map Elem.id).Nodup := by rw [hu_ids]; exact hids
  have hperm : (llMoveToFront u id).Perm u := llMoveToFront_perm hu_nodup
  refine ⟨?_, ?_, ?_, hik, ?_, ?_, ?_⟩
  · exact ((hperm.map Elem.id).nodup_iff).mpr hu_nodup
  · refine ((hperm.map _).nodup_iff).mpr ?_
    rw [hu_keys]; exact hkeys
  · intro e he
    have heu := hperm.mem_iff.mp he
    rcases mem_llUpdate heu with ⟨hel, _⟩ | ⟨e0, he0, he0id, rfl⟩
    · exact hlt e hel
    · show id < c.nextId
      rw [← he0id]
      exact hlt e0 he0
  · intro p hp
    obtain ⟨e, he, h1, h2⟩ := hitl p hp
    refine ⟨if e.id = id then ⟨id, f e.it⟩ else e, hperm.mem_iff.mpr (mem_llUpdate_of_mem he), ?_, ?_⟩
    · by_cases hc : e.id = id <;> simp [hc, ← h1, hc]
    · by_cases hc : e.id = id <;> simp [hc, hf, h2]
  · intro e he
    have heu := hperm.mem_iff.mp he
    rcases mem_llUpdate heu with ⟨hel, _⟩ | ⟨e0, he0, he0id, rfl⟩
    · exact hlti e hel
    · show alGet c.items (f e0.it).key = some id
      rw [hf, ← he0id]
      exact hlti e0 he0
  · show c.items.length = (llMoveToFront u id).length
    rw [hperm.length_eq]
    have : u.length = c.ll.length := by
      have := congrArg List.length hu_ids
      simpa using this
    omega

/-- Move-then-update: `incr`'s present branch. -/
theorem WF_moveUpdate {c : Shard} (hwf : WF c) {id : Nat} {f : Item → Item}
    (hf : ∀ it, (f it).key = it.key) :
    WF { c with ll := llUpdate (llMoveToFront c.ll id) id f } := by
  obtain ⟨hids, hkeys, hlt, hik, hitl, hlti, hlen⟩ := hwf
  set m := llMoveToFront c.ll id with hm
  have hperm : m.Perm c.ll := llMoveToFront_perm hids
  have hm_ids : (m.map Elem.id).Nodup := ((hperm.map Elem.id).nodup_iff).mpr hids
  set u := llUpdate m id f with hu
  have hu_ids : u.map Elem.id = m.map Elem.id := llUpdate_map_id m id f
  have hu_keys : u.map (fun e => e.it.key) = m.map (fun e => e.it.key) :=
    llUpdate_keys m id f hf
  refine ⟨?_, ?_, ?_, hik, ?_, ?_, ?_⟩
  · rw [hu_ids]; exact hm_ids
  · rw [hu_keys]
    exact ((hperm.map _).nodup_iff).mpr hkeys
  · intro e he
    rcases mem_llUpdate he with ⟨hel, _⟩ | ⟨e0, he0, he0id, rfl⟩
    · exact hlt e (hperm.mem_iff.mp hel)
    · show id < c.nextId
      rw [← he0id]
      exact hlt e0 (hperm.mem_iff.mp he0)
  · intro p hp
    obtain ⟨e, he, h1, h2⟩ := hitl p hp
    have hem : e ∈ m := hperm.mem_iff.mpr he
    refine ⟨if e.id = id then ⟨id, f e.it⟩ else e, mem_llUpdate_of_mem hem, ?_, ?_⟩
    · by_cases hc : e.id = id <;> simp [hc, ← h1, hc]
    · by_cases hc : e.id = id <;> simp [hc, hf, h2]
  · intro e he
    rcases mem_llUpdate he with ⟨hel, _⟩ | ⟨e0, he0, he0id, rfl⟩
    · exact hlti e (hperm.mem_iff.mp hel)
    · show alGet c.items (f e0.it).key = some id
      rw [hf, ← he0id]
      exact hlti e0 (hperm.mem_iff.mp he0)
  · show c.items.length = u.length
    have h1 : u.length = m.length := by
      have := congrArg List.length hu_ids
      simpa using this
    rw [h1, hperm.length_eq, hlen]

theorem WF_set {c : Shard} (hwf : WF c) (k : String) (v : Value) (x : Int) :
    WF (c.set k v x) := by
  cases h : alGet c.items k with
  | some id =>
    have h1 := @WF_updateMove c hwf id
      (fun it => { it with value := v, expiration := x }) (fun it => rfl)
    have h2 := WF_evict h1
    simpa [Shard.set, h] using h2
  | none =>
    have h1 := @WF_pushFresh c hwf k ⟨k, v, x⟩ h rfl
    have h2 := WF_evict h1
    simpa [Shard.set, h, alPut_absent _ h] using h2

theorem WF_incr {c : Shard} (hwf : WF c) (k : String) (delta : Int) :
    WF (c.incr k delta).2 := by
  cases h : alGet c.items k with
  | some id =>
    cases hf : c.ll.find? (fun e => e.id == id) with
    | none => simpa [Shard.incr, h, hf] using hwf
    | some e =>
      cases hv : e.it.value with
      | vint64 n =>
        have h1 := @WF_moveUpdate c hwf id
          (fun it => { it with value := .vint64 (n + delta) }) (fun it => rfl)
        simpa [Shard.incr, h, hf, hv] using h1
      | vint n =>
        have h1 := @WF_moveUpdate c hwf id
          (fun it => { it with value := .vint64 (n + delta) }) (fun it => rfl)
        simpa [Shard.incr, h, hf, hv] using h1
      | vint32 n =>
        have h1 := @WF_moveUpdate c hwf id
          (fun it => { it with value := .vint64 (n + delta) }) (fun it => rfl)
        simpa [Shard.incr, h, hf, hv] using h1
      | vstr s =>
        have h1 := WF_of_perm hwf (@llMoveToFront_perm c.ll id hwf.1)
        simpa [Shard.incr, h, hf, hv] using h1
      | vother =>
        have h1 := WF_of_perm hwf (@llMoveToFront_perm c.ll id hwf.1)
        simpa [Shard.incr, h, hf, hv] using h1
  | none =>
    have h1 := @WF_pushFresh c hwf k ⟨k, .vint64 delta, 0⟩ h rfl
    have h2 := WF_evict h1
    simpa [Shard.incr, h, alPut_absent _ h] using h2

theorem WF_foldl_delete {c : Shard} (hwf : WF c) (ks : List String) :
    WF (ks.foldl Shard.delete c) := by
  induction ks generalizing c with
  | nil => exact hwf
  | cons k t ih => exact ih (WF_delete hwf k)

theorem WF_deleteExpired {c : Shard} (hwf : WF c) (now : Int) :
    WF (c.deleteExpired now) := by
  rw [Shard.deleteExpired]
  exact WF_foldl_delete hwf _

/-! ## Operation sequences on one shard

For the invariant claims the operations are reified: each constructor is
one public operation as it reaches a shard.  `opSave` is `SaveToFile`'s
visit, which only reads the shard; `opLoad` is the per-entry step
`LoadFromFile` performs on the owning shard (push at the front, record
in the index — verbatim from the source, with no capacity or presence
check). -/

inductive Op where
  | opSet (key : String) (value : Value) (expiration : Int)
  | opGet (key : String) (now : Int)
  | opDelete (key : String)
  | opIncr (key : String) (delta : Int)
  | opExpire (now : Int)
  | opSave
  | opLoad (it : Item)
deriving DecidableEq, Repr

def applyOp (c : Shard) : Op → Shard
  | .opSet k v x => c.set k v x
  | .opGet k now => (c.get k now).2
  | .opDelete k => c.delete k
  | .opIncr k d => (c.incr k d).2
  | .opExpire now => c.deleteExpired now
  | .opSave => c
  | .opLoad it =>
    { c with ll := ⟨c.nextId, it⟩ :: c.ll,
             items := alPut c.items it.key c.nextId,
             nextId := c.nextId + 1 }

def applyOps (c : Shard) (ops : List Op) : Shard := ops.foldl applyOp c

/-- The guard under which an operation is known to preserve the
invariant: a load step must land on a key absent from the shard. -/
def opGuard (c : Shard) : Op → Prop
  | .opLoad it => alGet c.items it.key = none
  | _ => True

instance (c : Shard) (op : Op) : Decidable (opGuard c op) := by
  cases op <;> simp only [opGuard] <;> infer_instance

def ValidSeq (c : Shard) : List Op → Prop
  | [] => True
  | op :: ops => opGuard c op ∧ ValidSeq (applyOp c op) ops

instance ValidSeq.dec (c : Shard) : (ops : List Op) → Decidable (ValidSeq c ops)
  | [] => .isTrue trivial
  | op :: ops =>
    have := ValidSeq.dec (applyOp c op) ops
    inferInstanceAs (Decidable (_ ∧ _))

theorem WF_applyOp {c : Shard} (hwf : WF c) {op : Op} (hg : opGuard c op) :
    WF (applyOp c op) := by
  cases op with
  | opSet k v x => exact WF_set hwf k v x
  | opGet k now => exact WF_get hwf k now
  | opDelete k => exact WF_delete hwf k
  | opIncr k d => exact WF_incr hwf k d
  | opExpire now => exact WF_deleteExpired hwf now
  | opSave => exact hwf
  | opLoad it =>
    have hg' : alGet c.items it.key = none := hg
    have h1 := @WF_pushFresh c hwf it.key it hg' rfl
    simpa [applyOp, alPut_absent _ hg'] using h1

theorem WF_applyOps {c : Shard} (hwf : WF c) {ops : List Op}
    (hv : ValidSeq c ops) : WF (applyOps c ops) := by
  induction ops generalizing c with
  | nil => exact hwf
  | cons op t ih => exact ih (WF_applyOp hwf hv.1) hv.2

/-! ## How `LoadFromFile` changes shard lengths -/

theorem loadStep_shardIndexOf (sc : ShardedCache) (p : String × Item) (key : String) :
    (sc.loadStep p).shardIndexOf key = sc.shardIndexOf key := by
  rw [ShardedCache.loadStep]
  cases h : sc.shards[sc.shardIndexOf p.2.key]? <;> rfl

/-- Every load step adds its entry to the owning shard unconditionally:
the shard's list grows by exactly the number of entries hashed to it,
and its capacity field is untouched. -/
theorem loadItems_length (m : List (String × Item)) :
    ∀ (sc : ShardedCache) {i : Nat} {sh : Shard}, sc.shards[i]? = some sh →
    ∃ sh', (sc.loadItems m).shards[i]? = some sh' ∧
      sh'.maxSize = sh.maxSize ∧
      sh'.ll.length =
        sh.ll.length + (m.filter (fun p => sc.shardIndexOf p.2.key == i)).length := by
  induction m with
  | nil =>
    intro sc i sh hsh
    exact ⟨sh, hsh, rfl, by simp [ShardedCache.loadItems]⟩
  | cons p t ih =>
    intro sc i sh hsh
    have hstep : sc.loadItems (p :: t) = (sc.loadStep p).loadItems t := rfl
    rw [hstep]
    have hidx : ∀ key, (sc.loadStep p).shardIndexOf key = sc.shardIndexOf key :=
      loadStep_shardIndexOf sc p
    have hfil2 : ∀ (sc1 : ShardedCache), (∀ key, sc1.shardIndexOf key = sc.shardIndexOf key) →
        (t.filter (fun q => sc1.shardIndexOf q.2.key == i)).length =
        (t.filter (fun q => sc.shardIndexOf q.2.key == i)).length := by
      intro sc1 hsc1
      congr 1
      apply List.filter_congr
      intro q _
      rw [hsc1]
    by_cases hj : sc.shardIndexOf p.2.key = i
    · -- the entry lands on shard i
      have hlt : i < sc.shards.length := by
        by_contra hge
        rw [List.getElem?_eq_none (by omega)] at hsh
        cases hsh
      have hget : (sc.loadStep p).shards[i]? =
          some ⟨alPut sh.items p.2.key sh.nextId, ⟨sh.nextId, p.2⟩ :: sh.ll,
                sh.maxSize, sh.nextId + 1, sh.stopClosed⟩ := by
        simp only [ShardedCache.loadStep, hj, hsh]
        rw [List.getElem?_set_self']
        simp [List.getElem?_eq_getElem hlt]
      obtain ⟨sh', h1, h2, h3⟩ := ih (sc.loadStep p) hget
      refine ⟨sh', h1, h2, ?_⟩
      rw [h3]
      have hfil : ((p :: t).filter (fun q => sc.shardIndexOf q.2.key == i)).length =
          (t.filter (fun q => sc.shardIndexOf q.2.key == i)).length + 1 := by
        rw [List.filter_cons, if_pos (by simp [hj])]
        simp
      rw [hfil2 _ hidx, hfil]
      simp only [List.length_cons]
      omega
    · -- the entry lands elsewhere; shard i is untouched by this step
      have hget : (sc.loadStep p).shards[i]? = some sh := by
        cases h : sc.shards[sc.shardIndexOf p.2.key]? with
        | none => simpa [ShardedCache.loadStep, h] using hsh
        | some shj =>
          simp only [ShardedCache.loadStep, h]
          rw [List.getElem?_set_ne hj]
          exact hsh
      obtain ⟨sh', h1, h2, h3⟩ := ih (sc.loadStep p) hget
      refine ⟨sh', h1, h2, ?_⟩
      rw [h3]
      have hfil : ((p :: t).filter (fun q => sc.shardIndexOf q.2.key == i)).length =
          (t.filter (fun q => sc.shardIndexOf q.2.key == i)).length := by
        rw [List.filter_cons, if_neg (by simp [hj])]
      rw [hfil2 _ hidx, hfil]

/-! ## Claim C1 — capacity enforcement during load

The specification claims `LoadFromFile` enforces shard capacity during
load, later entries evicting earlier ones.  The source's load loop
pushes every decoded entry with no eviction check, so a shard can end
the load above its capacity. -/

/-- Claim C1, counterexample: loading a dump of two distinct keys into a
cache of one shard with capacity 1 leaves that shard holding 2 entries,
so the claimed bound `sequence.length ≤ C` fails right after
`LoadFromFile` (2 > 1); no entry was evicted during the load. -/
theorem C1_counterexample :
    ((encodeDump [("a", ⟨"a", .vstr "x", 0⟩), ("b", ⟨"b", .vstr "y", 0⟩)]).toOption.bind
        (fun file => ((NewShardedCache 1 1).LoadFromFile file).map
          (fun sc => sc.shards.map (fun sh => ((sh.ll.length : Int), sh.maxSize)))))
      = some [(2, 1)] ∧ ¬((2 : Int) ≤ 1) := by
  constructor
  · decide
  · decide

/-- Claim C1, amended: `LoadFromFile` enforces no capacity at all.  Each
decoded entry is pushed at the front of its owning shard unconditionally,
so after a load the shard's list has grown by exactly the number of
loaded entries hashed to it, its capacity field unchanged — a dump whose
entries exceed a shard's capacity leaves that shard above capacity, and
I3 is restored only by later `set`/`incr` evictions. -/
theorem C1_amended (sc sc' : ShardedCache) (file : List Nat)
    (m : List (String × Item)) (i : Nat) (sh : Shard)
    (hdec : decodeDump file = some m)
    (hload : sc.LoadFromFile file = some sc')
    (hsh : sc.shards[i]? = some sh) :
    ∃ sh', sc'.shards[i]? = some sh' ∧ sh'.maxSize = sh.maxSize ∧
      sh'.ll.length = sh.ll.length +
        (m.filter (fun p => sc.shardIndexOf p.2.key == i)).length := by
  have hsc' : sc' = sc.loadItems m := by
    rw [ShardedCache.LoadFromFile, hdec] at hload
    simp only [Option.map_some'] at hload
    exact (Option.some_inj.mp hload).symm
  rw [hsc']
  exact loadItems_length m sc hsh

/-- Claim C1, witness for the amended theorem at a concrete dump: two
entries land on the single shard of capacity 1, growing it from 0 to 2. -/
theorem C1_amended_witness :
    ∃ sh', ((NewShardedCache 1 1).loadItems
        [("a", ⟨"a", .vstr "x", 0⟩), ("b", ⟨"b", .vstr "y", 0⟩)]).shards[0]? = some sh' ∧
      sh'.maxSize = (emptyShard 1).maxSize ∧
      sh'.ll.length = (emptyShard 1).ll.length +
        (([("a", (⟨"a", .vstr "x", 0⟩ : Item)), ("b", ⟨"b", .vstr "y", 0⟩)]).filter
          (fun p => (NewShardedCache 1 1).shardIndexOf p.2.key == 0)).length := by
  have h := C1_amended (NewShardedCache 1 1) _
    ((encodeDump [("a", ⟨"a", .vstr "x", 0⟩), ("b", ⟨"b", .vstr "y", 0⟩)]).toOption.getD [])
    [("a", ⟨"a", .vstr "x", 0⟩), ("b", ⟨"b", .vstr "y", 0⟩)] 0 (emptyShard 1)
    (by decide) rfl (by decide)
  exact h

/-! ## Claim C2 — invariant I1: `index.size == sequence.length` -/

/-- Claim C2, counterexample: the invariant is broken by `LoadFromFile`
itself when a loaded key is already present.  From a fresh cache,
`Set "a"` then `LoadFromFile` of a dump containing key `"a"` leaves the
single shard with `index.size = 1` but `sequence.length = 2`: the load
pushed a second list element and overwrote the one index pointer. -/
theorem C2_counterexample :
    ((encodeDump [("a", ⟨"a", .vstr "w", 0⟩)]).toOption.bind
        (fun file => ((((NewShardedCache 1 10).Set "a" (.vstr "v") 0 100)).LoadFromFile file).map
          (fun sc => sc.shards.map (fun sh => (sh.items.length, sh.ll.length)))))
      = some [(1, 2)] ∧ (1 : Nat) ≠ 2 := by
  constructor
  · decide
  · decide

/-- Claim C2, amended: for every shard, `index.size == sequence.length`
holds after every operation in any sequence of set, get, delete, incr,
expireSweep and SaveToFile from a fresh shard, and also across
LoadFromFile steps provided each loaded key is absent from its shard
when loaded (as when loading into a fresh cache); a LoadFromFile step
whose key is already present breaks the invariant. -/
theorem C2_amended (ms : Int) (ops : List Op) (hv : ValidSeq (emptyShard ms) ops) :
    (applyOps (emptyShard ms) ops).items.length =
      (applyOps (emptyShard ms) ops).ll.length :=
  (WF_applyOps (WF_empty ms) hv).2.2.2.2.2.2

/-- Claim C2, witness: a sequence exercising every operation keeps
`index.size = sequence.length`. -/
theorem C2_amended_witness :
    ValidSeq (emptyShard 2)
      [.opSet "a" (.vint64 1) 0, .opIncr "b" 1, .opGet "a" 5, .opLoad ⟨"c", .vint64 3, 0⟩,
       .opExpire 10, .opSave, .opDelete "a", .opSet "d" (.vstr "x") 7] ∧
    (applyOps (emptyShard 2)
      [.opSet "a" (.vint64 1) 0, .opIncr "b" 1, .opGet "a" 5, .opLoad ⟨"c", .vint64 3, 0⟩,
       .opExpire 10, .opSave, .opDelete "a", .opSet "d" (.vstr "x") 7]).items.length =
    (applyOps (emptyShard 2)
      [.opSet "a" (.vint64 1) 0, .opIncr "b" 1, .opGet "a" 5, .opLoad ⟨"c", .vint64 3, 0⟩,
       .opExpire 10, .opSave, .opDelete "a", .opSet "d" (.vstr "x") 7]).ll.length :=
  ⟨by decide, C2_amended 2 _ (by decide)⟩

/-! ## Claim C3 — idempotence of `stop` -/

theorem mapM_stop_fresh (l : List Shard) (h : ∀ sh ∈ l, sh.stopClosed = false) :
    l.mapM Shard.stop = .ok (l.map (fun sh => { sh with stopClosed := true })) := by
  induction l with
  | nil => rfl
  | cons a t ih =>
    have ha : a.stopClosed = false := h a (List.mem_cons_self _ _)
    rw [List.mapM_cons, ih (fun sh hsh => h sh (List.mem_cons_of_mem _ hsh))]
    simp only [Shard.stop, ha, Bool.false_eq_true, if_false]
    rfl

theorem mapM_stop_closedHead (a : Shard) (t : List Shard) (ha : a.stopClosed = true) :
    (a :: t).mapM Shard.stop = (.error "close of closed channel" : Except String (List Shard)) := by
  rw [List.mapM_cons]
  simp only [Shard.stop, ha, if_true]
  rfl

/-- Claim C3, counterexample: calling `Stop` twice on a freshly built
cache does not succeed a second time — the second round of
`close(c.stopCh)` is a close of an already-closed channel, which panics
in the Go runtime. -/
theorem C3_counterexample :
    ((NewShardedCache 2 10).Stop.bind ShardedCache.Stop) =
      .error "close of closed channel" := rfl

/-- Claim C3, amended: `stop()` is safe to call exactly once per shard:
on a cache whose shards have not been stopped, `Stop()` succeeds and
marks every stop channel closed, but a second `Stop()` (equivalently a
second `stop()` on any shard) panics with `close of closed channel` —
`stop` is not idempotent. -/
theorem C3_amended (sc : ShardedCache) (hne : sc.shards ≠ [])
    (hfresh : ∀ sh ∈ sc.shards, sh.stopClosed = false) :
    ∃ sc', sc.Stop = .ok sc' ∧
      (∀ sh ∈ sc'.shards, sh.stopClosed = true) ∧
      sc'.Stop = .error "close of closed channel" := by
  obtain ⟨shards, count⟩ := sc
  cases shards with
  | nil => exact absurd rfl hne
  | cons a t =>
    refine ⟨⟨(a :: t).map (fun sh => { sh with stopClosed := true }), count⟩, ?_, ?_, ?_⟩
    · show (do
        let shards ← (a :: t).mapM Shard.stop
        pure { shards := shards, shardCount := count } : Except String ShardedCache) = _
      rw [mapM_stop_fresh _ hfresh]
      rfl
    · intro sh hsh
      obtain ⟨sh0, _, rfl⟩ := List.mem_map.mp hsh
      rfl
    · show (do
        let shards ← ((a :: t).map (fun sh => { sh with stopClosed := true })).mapM Shard.stop
        pure { shards := shards, shardCount := count } : Except String ShardedCache) = _
      rw [List.map_cons, mapM_stop_closedHead _ _ rfl]
      rfl

/-- Claim C3, witness: the amended behaviour at a concrete two-shard
cache. -/
theorem C3_amended_witness :
    ∃ sc', (NewShardedCache 2 10).Stop = .ok sc' ∧
      (∀ sh ∈ sc'.shards, sh.stopClosed = true) ∧
      sc'.Stop = .error "close of closed channel" :=
  C3_amended (NewShardedCache 2 10) (by decide) (by decide)

/-! ## Claim C6 — `incr` on a non-integer value -/

/-- The variants `incr` treats as numbers (`int64`, `int`, `int32`). -/
def Value.isNumeric : Value → Bool
  | .vint64 _ | .vint _ | .vint32 _ => true
  | _ => false

/-- Claim C6, counterexample: with `"a"` at the front and the
string-valued `"b"` at the back, `incr "b"` returns the type error but
has already moved `"b"`'s entry from the back to the front — the
position in the recency sequence is not "the same as before the call". -/
theorem C6_counterexample :
    ((((emptyShard 10).set "b" (.vstr "x") 0).set "a" (.vint64 1) 0).incr "b" 1).1
      = .error "value is not an integer" ∧
    ((((emptyShard 10).set "b" (.vstr "x") 0).set "a" (.vint64 1) 0).incr "b" 1).2.ll.map
      (fun e => e.it.key) = ["b", "a"] ∧
    (((emptyShard 10).set "b" (.vstr "x") 0).set "a" (.vint64 1) 0).ll.map
      (fun e => e.it.key) = ["a", "b"] :=
  ⟨rfl, rfl, rfl⟩

/-- Claim C6, amended: for every present key whose current value is not
a numeric variant, `incrementBy` returns an error ("value is not an
integer" for a string, "value is not a supported number type"
otherwise) and leaves the value, the expiration and the index untouched
— but not the recency position: the source moves the element to the
front *before* inspecting the value, so the entry ends at the front
even on a type error. -/
theorem C6_amended (c : Shard) (key : String) (delta : Int) (id : Nat) (e : Elem)
    (h : alGet c.items key = some id)
    (hf : c.ll.find? (fun x => x.id == id) = some e)
    (hv : e.it.value.isNumeric = false) :
    (∃ msg, (c.incr key delta).1 = .error msg) ∧
    (c.incr key delta).2 = { c with ll := llMoveToFront c.ll id } := by
  cases hval : e.it.value with
  | vint64 n => rw [hval] at hv; cases hv
  | vint n => rw [hval] at hv; cases hv
  | vint32 n => rw [hval] at hv; cases hv
  | vstr s =>
    constructor
    · exact ⟨"value is not an integer", by simp [Shard.incr, h, hf, hval]⟩
    · simp [Shard.incr, h, hf, hval]
  | vother =>
    constructor
    · exact ⟨"value is not a supported number type", by simp [Shard.incr, h, hf, hval]⟩
    · simp [Shard.incr, h, hf, hval]

/-! ## Claim C7 — expired entries are removed by `get` -/

theorem evict_items_lookup {s : Shard} {k : String} {id : Nat}
    (h : alGet s.evictIfNeeded.items k = some id) : alGet s.items k = some id := by
  rw [Shard.evictIfNeeded] at h
  split at h
  · split at h
    · rename_i lru heq
      by_cases hk : k = lru.it.key
      · rw [hk] at h
        rw [alGet_alDel_self] at h
        cases h
      · rwa [alGet_alDel_ne _ hk] at h
    · exact h
  · exact h

theorem evict_mem {s : Shard} {e : Elem} (h : e ∈ s.evictIfNeeded.ll) : e ∈ s.ll := by
  rw [Shard.evictIfNeeded] at h
  split at h
  · split at h
    · exact (mem_llRemove.mp h).1
    · exact h
  · exact h

/-- After `set key value x`, any entry the index yields for `key` holds
exactly `value` and `x` — the overwrite of value and expiration is
total, whatever was stored before. -/
theorem set_entry_props {c : Shard} (hb : ∀ e ∈ c.ll, e.id < c.nextId)
    (k : String) (v : Value) (x : Int) :
    ∀ id e, alGet (c.set k v x).items k = some id → e ∈ (c.set k v x).ll → e.id = id →
      e.it.value = v ∧ e.it.expiration = x := by
  intro id e hid hmem hide
  cases h0 : alGet c.items k with
  | some id0 =>
    have hset : c.set k v x = Shard.evictIfNeeded
        { c with ll := (llMoveToFront
            (llUpdate c.ll id0 (fun it => { it with value := v, expiration := x })) id0) } := by
      simp [Shard.set, h0]
    rw [hset] at hid hmem
    have hid0 := evict_items_lookup hid
    have hid' : alGet c.items k = some id := hid0
    have hido : id = id0 := Option.some_inj.mp (hid'.symm.trans h0)
    have hmem' := evict_mem hmem
    have hmem'' := mem_llMoveToFront hmem'
    rcases mem_llUpdate hmem'' with ⟨_, hne⟩ | ⟨e0, _, _, rfl⟩
    · exact absurd (by rw [hide]; exact hido) hne
    · exact ⟨rfl, rfl⟩
  | none =>
    have hset : c.set k v x = Shard.evictIfNeeded
        { c with ll := ⟨c.nextId, k, v, x⟩ :: c.ll,
                 items := (k, c.nextId) :: c.items,
                 nextId := c.nextId + 1 } := by
      simp [Shard.set, h0, alPut_absent _ h0]
    rw [hset] at hid hmem
    have hid0 := evict_items_lookup hid
    have hid' : alGet ((k, c.nextId) :: c.items) k = some id := hid0
    rw [alGet_cons, if_pos rfl] at hid'
    have hidn : id = c.nextId := by
      injection hid' with hh
      exact hh.symm
    have hmem' := evict_mem hmem
    rcases List.mem_cons.mp hmem' with rfl | hold
    · exact ⟨rfl, rfl⟩
    · exfalso
      have hlt := hb e hold
      rw [hide, hidn] at hlt
      exact lt_irrefl _ hlt

/-- Claim C7: a `get` that finds the key but sees a positive expiration
strictly in the past removes the entry from both index and sequence and
returns NotFound; consequently `SET(k,v,T)` (with a positive computed
deadline) followed by `GET(k)` strictly after the deadline returns
NotFound. -/
theorem C7 :
    (∀ (c : Shard) (key : String) (now : Int) (id : Nat) (e : Elem),
      alGet c.items key = some id →
      c.ll.find? (fun x => x.id == id) = some e →
      e.it.expiration > 0 → now > e.it.expiration →
      (c.get key now).1 = none ∧
      alGet (c.get key now).2.items key = none ∧
      ∀ e' ∈ (c.get key now).2.ll, e'.id ≠ id) ∧
    (∀ (c : Shard) (k : String) (v : Value) (ttl now now2 : Int),
      (∀ e ∈ c.ll, e.id < c.nextId) →
      0 < now + ttl → now2 > now + ttl →
      ((c.set k v (now + ttl)).get k now2).1 = none) := by
  constructor
  · intro c key now id e h hf hpos hnow
    have hguard : e.it.expiration > 0 ∧ now > e.it.expiration := ⟨hpos, hnow⟩
    have hst : (c.get key now).2.ll = llRemove c.ll id := by
      simp [Shard.get, h, hf, hguard]
    refine ⟨?_, ?_, ?_⟩
    · simp [Shard.get, h, hf, hguard]
    · have : (c.get key now).2.items = alDel c.items key := by
        simp [Shard.get, h, hf, hguard]
      rw [this, alGet_alDel_self]
    · intro e' he'
      rw [hst] at he'
      exact (mem_llRemove.mp he').2
  · intro c k v ttl now now2 hb h1 h2
    cases hid : alGet (c.set k v (now + ttl)).items k with
    | none => simp [Shard.get, hid]
    | some id =>
      cases hf : (c.set k v (now + ttl)).ll.find? (fun x => x.id == id) with
      | none => simp [Shard.get, hid, hf]
      | some e =>
        have he : e ∈ (c.set k v (now + ttl)).ll := List.mem_of_find?_eq_some hf
        have hide : e.id = id := by simpa using List.find?_some hf
        obtain ⟨hv, hx⟩ := set_entry_props hb k v (now + ttl) id e hid he hide
        have hguard : e.it.expiration > 0 ∧ now2 > e.it.expiration := by
          rw [hx]; exact ⟨h1, h2⟩
        simp [Shard.get, hid, hf, hguard]

/-- Claim C7, witness: an entry set at instant 2 with TTL 5 (deadline 7)
is gone for a `get` at instant 9, both through the general expired-get
statement and through the set-then-get corollary. -/
theorem C7_witness :
    (((emptyShard 3).set "k" (.vint64 1) 7).get "k" 9).1 = none ∧
    (((emptyShard 3).set "k" (.vint64 1) (2 + 5)).get "k" 9).1 = none :=
  ⟨(C7.1 ((emptyShard 3).set "k" (.vint64 1) 7) "k" 9 0 ⟨0, "k", .vint64 1, 7⟩
      (by decide) (by decide) (by decide) (by decide)).1,
   C7.2 (emptyShard 3) "k" (.vint64 1) 5 2 9 (by decide) (by decide) (by decide)⟩

/-! ## Claim C9 — `Set` replaces the expiration totally -/

theorem evict_front {s : Shard} {e : Elem}
    (hhead : s.ll.head? = some e)
    (hids : (s.ll.map Elem.id).Nodup)
    (hkeys : (s.ll.map (fun x => x.it.key)).Nodup)
    (hlook : alGet s.items e.it.key = some e.id) :
    s.evictIfNeeded.ll.head? = some e ∧ alGet s.evictIfNeeded.items e.it.key = some e.id := by
  obtain ⟨rest, hll⟩ : ∃ rest, s.ll = e :: rest := by
    cases h : s.ll with
    | nil => rw [h] at hhead; cases hhead
    | cons a t =>
      rw [h, List.head?_cons] at hhead
      exact ⟨t, by rw [Option.some_inj.mp hhead]⟩
  rw [hll] at hids hkeys
  rw [Shard.evictIfNeeded, hll]
  split
  · rename_i hcond
    cases rest with
    | nil =>
      exfalso
      simp only [List.length_cons, List.length_nil] at hcond
      omega
    | cons b l =>
      rw [List.getLast?_cons_cons]
      cases hlast : (b :: l).getLast? with
      | none => simp at hlast
      | some lru =>
        have hlru_mem : lru ∈ b :: l := getLast?_mem hlast
        simp only [List.map_cons, List.nodup_cons] at hids hkeys
        have hidne : e.id ≠ lru.id := by
          intro hc
          apply hids.1
          apply List.mem_cons.mpr
          rcases List.mem_cons.mp hlru_mem with hb | hl
          · exact Or.inl (by rw [hc, hb])
          · exact Or.inr (List.mem_map.mpr ⟨lru, hl, hc.symm⟩)
        have hkne : e.it.key ≠ lru.it.key := by
          intro hc
          apply hkeys.1
          apply List.mem_cons.mpr
          rcases List.mem_cons.mp hlru_mem with hb | hl
          · exact Or.inl (by rw [hc, hb])
          · exact Or.inr (List.mem_map.mpr ⟨lru, hl, hc.symm⟩)
        constructor
        · show (llRemove (e :: b :: l) lru.id).head? = some e
          rw [llRemove, List.filter_cons, if_pos (by simpa using hidne)]
          rfl
        · show alGet (alDel s.items lru.it.key) e.it.key = some e.id
          rw [alGet_alDel_ne _ hkne]
          exact hlook
  · exact ⟨hhead, hlook⟩

/-- After `set key value x`, the key's entry sits at the front of the
recency sequence carrying exactly `value` and `x`, and the index points
at it. -/
theorem set_front {c : Shard} (hwf : WF c) (k : String) (v : Value) (x : Int) :
    ∃ e, (c.set k v x).ll.head? = some e ∧ e.it.key = k ∧ e.it.value = v ∧
      e.it.expiration = x ∧ alGet (c.set k v x).items k = some e.id := by
  cases h0 : alGet c.items k with
  | some id0 =>
    obtain ⟨ek, hekm, hekid, hekk, hekf⟩ := WF_lookup hwf h0
    have hset : c.set k v x = Shard.evictIfNeeded
        { c with ll := (llMoveToFront
            (llUpdate c.ll id0 (fun it => { it with value := v, expiration := x })) id0) } := by
      simp [Shard.set, h0]
    set fup : Item → Item := fun it => { it with value := v, expiration := x } with hfup
    set u := llUpdate c.ll id0 fup with hu
    set eu : Elem := ⟨id0, fup ek.it⟩ with heu
    have heu_mem : eu ∈ u := by
      have := @mem_llUpdate_of_mem c.ll id0 fup _ hekm
      rwa [if_pos hekid] at this
    have hu_ids : u.map Elem.id = c.ll.map Elem.id := llUpdate_map_id c.ll id0 fup
    have hu_nodup : (u.map Elem.id).Nodup := by rw [hu_ids]; exact hwf.1
    have hu_keys : u.map (fun x => x.it.key) = c.ll.map (fun x => x.it.key) :=
      llUpdate_keys c.ll id0 fup (fun it => rfl)
    have hu_knodup : (u.map (fun x => x.it.key)).Nodup := by rw [hu_keys]; exact hwf.2.1
    have hfind : u.find? (fun x => x.id == id0) = some eu := by
      have := find?_eq_of_mem_nodup hu_nodup heu_mem
      simpa using this
    have hmtf : llMoveToFront u id0 = eu :: llRemove u id0 := by
      rw [llMoveToFront, hfind]
    have hperm : (llMoveToFront u id0).Perm u := llMoveToFront_perm hu_nodup
    refine ⟨eu, ?_, ?_, rfl, rfl, ?_⟩
    · rw [hset]
      have hh : ({ c with ll := llMoveToFront u id0 } : Shard).ll.head? = some eu := by
        show (llMoveToFront u id0).head? = some eu
        rw [hmtf, List.head?_cons]
      have hids2 : (({ c with ll := llMoveToFront u id0 } : Shard).ll.map Elem.id).Nodup :=
        ((hperm.map Elem.id).nodup_iff).mpr hu_nodup
      have hkeys2 : (({ c with ll := llMoveToFront u id0 } : Shard).ll.map (fun x => x.it.key)).Nodup :=
        ((hperm.map _).nodup_iff).mpr hu_knodup
      have hlook2 : alGet ({ c with ll := llMoveToFront u id0 } : Shard).items eu.it.key = some eu.id := by
        show alGet c.items (fup ek.it).key = some id0
        have : (fup ek.it).key = k := hekk
        rw [this]
        exact h0
      exact (evict_front hh hids2 hkeys2 hlook2).1
    · exact hekk
    · rw [hset]
      have hh : ({ c with ll := llMoveToFront u id0 } : Shard).ll.head? = some eu := by
        show (llMoveToFront u id0).head? = some eu
        rw [hmtf, List.head?_cons]
      have hids2 : (({ c with ll := llMoveToFront u id0 } : Shard).ll.map Elem.id).Nodup :=
        ((hperm.map Elem.id).nodup_iff).mpr hu_nodup
      have hkeys2 : (({ c with ll := llMoveToFront u id0 } : Shard).ll.map (fun x => x.it.key)).Nodup :=
        ((hperm.map _).nodup_iff).mpr hu_knodup
      have hlook2 : alGet ({ c with ll := llMoveToFront u id0 } : Shard).items eu.it.key = some eu.id := by
        show alGet c.items (fup ek.it).key = some id0
        have : (fup ek.it).key = k := hekk
        rw [this]
        exact h0
      have := (evict_front hh hids2 hkeys2 hlook2).2
      have hkk : eu.it.key = k := hekk
      rwa [hkk] at this
  | none =>
    have hset : c.set k v x = Shard.evictIfNeeded
        { c with ll := ⟨c.nextId, k, v, x⟩ :: c.ll,
                 items := (k, c.nextId) :: c.items,
                 nextId := c.nextId + 1 } := by
      simp [Shard.set, h0, alPut_absent _ h0]
    have hwf1 := @WF_pushFresh c hwf k ⟨k, v, x⟩ h0 rfl
    have hh : (Shard.mk ((k, c.nextId) :: c.items) (⟨c.nextId, k, v, x⟩ :: c.ll)
        c.maxSize (c.nextId + 1) c.stopClosed).ll.head? = some ⟨c.nextId, k, v, x⟩ := rfl
    have hlook : alGet (Shard.mk ((k, c.nextId) :: c.items) (⟨c.nextId, k, v, x⟩ :: c.ll)
        c.maxSize (c.nextId + 1) c.stopClosed).items
        (Elem.mk c.nextId ⟨k, v, x⟩).it.key = some (Elem.mk c.nextId ⟨k, v, x⟩).id := by
      show alGet ((k, c.nextId) :: c.items) k = some c.nextId
      rw [alGet_cons, if_pos rfl]
    have hres := evict_front hh hwf1.1 hwf1.2.1 hlook
    refine ⟨⟨c.nextId, k, v, x⟩, ?_, rfl, rfl, rfl, ?_⟩
    · rw [hset]
      exact hres.1
    · rw [hset]
      exact hres.2

/-- Claim C9: the router computes the absolute deadline from the TTL
(`ttl > 0 ⇒ now + ttl`, otherwise none, i.e. 0) and the shard's `set`
overwrites the stored expiration unconditionally with it — overwrite is
total, whatever deadline the entry carried before. -/
theorem C9 (sc : ShardedCache) (key : String) (v : Value) (ttl now : Int)
    (sh : Shard)
    (hsh : sc.shards[sc.shardIndexOf key]? = some sh)
    (hwf : WF sh) :
    ∃ sh', (sc.Set key v ttl now).shards[sc.shardIndexOf key]? = some sh' ∧
      ∃ e, sh'.ll.head? = some e ∧ e.it.key = key ∧ e.it.value = v ∧
        e.it.expiration = (if ttl > 0 then now + ttl else 0) ∧
        alGet sh'.items key = some e.id := by
  have hlt : sc.shardIndexOf key < sc.shards.length := by
    by_contra hge
    rw [List.getElem?_eq_none (by omega)] at hsh
    cases hsh
  refine ⟨sh.set key v (if ttl > 0 then now + ttl else 0), ?_, ?_⟩
  · simp only [ShardedCache.Set, hsh]
    show (sc.shards.set _ _)[sc.shardIndexOf key]? = _
    rw [List.getElem?_set_self']
    simp [List.getElem?_eq_getElem hlt]
  · exact set_front hwf key v (if ttl > 0 then now + ttl else 0)

/-- Claim C9, witness: overwriting a key that carried deadline 50 with
`ttl = 0` leaves expiration none (0); the hypotheses are discharged at a
concrete one-shard cache. -/
theorem C9_witness :
    ∃ sh', (((ShardedCache.mk [(emptyShard 5).set "k" (.vstr "old") 50] 1).Set
        "k" (.vint64 3) 0 100)).shards[(ShardedCache.mk [(emptyShard 5).set "k" (.vstr "old") 50] 1).shardIndexOf "k"]?
        = some sh' ∧
      ∃ e, sh'.ll.head? = some e ∧ e.it.key = "k" ∧ e.it.value = .vint64 3 ∧
        e.it.expiration = (if (0 : Int) > 0 then 100 + 0 else 0) ∧
        alGet sh'.items "k" = some e.id :=
  C9 (ShardedCache.mk [(emptyShard 5).set "k" (.vstr "old") 50] 1) "k" (.vint64 3) 0 100
    ((emptyShard 5).set "k" (.vstr "old") 50) (by decide) (by decide)

/-! ## Claim C8 — `incr` on an absent key, and serial INCR counting -/

/-- `N` serial `INCR` invocations on one key (delta 1, as the router's
`Incr` passes), collecting the returned values in order. -/
def incrSeq (c : Shard) (key : String) : Nat → List (Except String Int) × Shard
  | 0 => ([], c)
  | n + 1 =>
    let r := c.incr key 1
    let rest := incrSeq r.2 key n
    (r.1 :: rest.1, rest.2)

theorem range_map_shift (n : Nat) (a : Int) :
    (List.range (n + 1)).map (fun (i : Nat) => (Except.ok (a + (i : Int)) : Except String Int))
      = Except.ok a :: (List.range n).map (fun (i : Nat) => .ok (a + 1 + (i : Int))) := by
  rw [List.range_succ_eq_map, List.map_cons, List.map_map]
  norm_num
  intro i _
  ring

theorem llUpdate_of_not_mem {ll : List Elem} {id : Nat} (f : Item → Item)
    (h : ∀ e ∈ ll, e.id ≠ id) : llUpdate ll id f = ll := by
  induction ll with
  | nil => rfl
  | cons a t ih =>
    have ha : a.id ≠ id := h a (List.mem_cons_self _ _)
    simp only [llUpdate, List.map_cons, if_neg ha]
    rw [← llUpdate, ih (fun e he => h e (List.mem_cons_of_mem _ he))]

theorem llUpdate_cons (e : Elem) (t : List Elem) (id : Nat) (f : Item → Item) :
    llUpdate (e :: t) id f = (if e.id = id then ⟨e.id, f e.it⟩ else e) :: llUpdate t id f := rfl

/-- One `incr` on a key whose integer entry sits at the front (and whose
identity appears nowhere else) increments the stored value in place and
leaves everything else untouched. -/
theorem incr_present_front (items : List (String × Nat)) (tail : List Elem)
    (key : String) (v : Int) (id0 : Nat) (ms : Int) (ni : Nat) (stop : Bool)
    (hid : alGet items key = some id0)
    (htail : ∀ e ∈ tail, e.id ≠ id0) :
    (Shard.mk items (⟨id0, key, .vint64 v, 0⟩ :: tail) ms ni stop).incr key 1 =
      (.ok (v + 1), Shard.mk items (⟨id0, key, .vint64 (v + 1), 0⟩ :: tail) ms ni stop) := by
  have hfind : (⟨id0, key, .vint64 v, 0⟩ :: tail).find? (fun x => x.id == id0)
      = some ⟨id0, key, .vint64 v, 0⟩ := by
    rw [List.find?_cons_of_pos]
    simp
  have hrem : llRemove ((⟨id0, key, .vint64 v, 0⟩ : Elem) :: tail) id0 = tail := by
    rw [llRemove, List.filter_cons, if_neg (by simp)]
    exact llRemove_of_not_mem htail
  have hmtf : llMoveToFront ((⟨id0, key, .vint64 v, 0⟩ : Elem) :: tail) id0
      = ⟨id0, key, .vint64 v, 0⟩ :: tail := by
    rw [llMoveToFront, hfind, hrem]
  have hupd : llUpdate ((⟨id0, key, .vint64 v, 0⟩ : Elem) :: tail) id0
      (fun it => { it with value := .vint64 (v + 1) }) = ⟨id0, key, .vint64 (v + 1), 0⟩ :: tail := by
    rw [llUpdate_cons, if_pos rfl, llUpdate_of_not_mem _ htail]
  simp [Shard.incr, hid, hfind, hmtf, hupd]

/-- Serial `incr`s starting from a front integer entry return
`v+1, v+2, …` in order. -/
theorem incrSeq_results (key : String) :
    ∀ (n : Nat) (items : List (String × Nat)) (tail : List Elem)
      (id0 : Nat) (v : Int) (ms : Int) (ni : Nat) (stop : Bool),
      alGet items key = some id0 → (∀ e ∈ tail, e.id ≠ id0) →
      (incrSeq (Shard.mk items (⟨id0, key, .vint64 v, 0⟩ :: tail) ms ni stop) key n).1 =
        (List.range n).map (fun i => .ok (v + 1 + (i : Int))) := by
  intro n
  induction n with
  | zero => intro items tail id0 v ms ni stop _ _; rfl
  | succ n ih =>
    intro items tail id0 v ms ni stop hid htail
    have hstep := incr_present_front items tail key v id0 ms ni stop hid htail
    show ((Shard.mk items (⟨id0, key, .vint64 v, 0⟩ :: tail) ms ni stop).incr key 1).1 ::
      (incrSeq ((Shard.mk items (⟨id0, key, .vint64 v, 0⟩ :: tail) ms ni stop).incr key 1).2 key n).1
      = _
    rw [hstep]
    show (Except.ok (v + 1)) ::
      (incrSeq (Shard.mk items (⟨id0, key, .vint64 (v + 1), 0⟩ :: tail) ms ni stop) key n).1 = _
    rw [ih items tail id0 (v + 1) ms ni stop hid htail]
    rw [range_map_shift n (v + 1)]

/-- The state after `incr`'s absent branch before eviction, and what
eviction can do to it: the fresh front entry and its index binding
survive, only a rear victim (and its index entry) may disappear. -/
theorem evict_push_shape {c : Shard} (hwf : WF c) (key : String) (dlt : Int)
    (h : alGet c.items key = none) :
    ∃ items' tail,
      Shard.evictIfNeeded (Shard.mk ((key, c.nextId) :: c.items)
          (⟨c.nextId, key, .vint64 dlt, 0⟩ :: c.ll) c.maxSize (c.nextId + 1) c.stopClosed)
        = Shard.mk items' (⟨c.nextId, key, .vint64 dlt, 0⟩ :: tail)
            c.maxSize (c.nextId + 1) c.stopClosed ∧
      alGet items' key = some c.nextId ∧ (∀ e ∈ tail, e.id ≠ c.nextId) := by
  have hids : ∀ e ∈ c.ll, e.id < c.nextId := hwf.2.2.1
  cases hll : c.ll with
  | nil =>
    rw [Shard.evictIfNeeded]
    split
    · rename_i hcond
      exfalso
      have h1 : c.maxSize > 0 := hcond.1
      have h2 : (([(⟨c.nextId, key, .vint64 dlt, 0⟩ : Elem)].length : Nat) : Int) > c.maxSize :=
        hcond.2
      simp only [List.length_cons, List.length_nil] at h2
      omega
    · refine ⟨(key, c.nextId) :: c.items, [], rfl, ?_, ?_⟩
      · rw [alGet_cons, if_pos rfl]
      · intro e he
        cases he
  | cons b l =>
    rw [Shard.evictIfNeeded]
    split
    · rw [List.getLast?_cons_cons]
      cases hlast : (b :: l).getLast? with
      | none => simp at hlast
      | some lru =>
        have hlru_mem : lru ∈ c.ll := by rw [hll]; exact getLast?_mem hlast
        have hlru_id : lru.id ≠ c.nextId := Nat.ne_of_lt (hids lru hlru_mem)
        have hlru_key : lru.it.key ≠ key := by
          intro hc
          have hx := hwf.2.2.2.2.2.1 lru hlru_mem
          rw [hc, h] at hx
          cases hx
        refine ⟨alDel ((key, c.nextId) :: c.items) lru.it.key,
                llRemove (b :: l) lru.id, ?_, ?_, ?_⟩
        · show Shard.mk _ (llRemove (⟨c.nextId, key, .vint64 dlt, 0⟩ :: b :: l) lru.id) _ _ _ = _
          rw [llRemove, List.filter_cons, if_pos (by simpa using fun hc => hlru_id hc.symm)]
          rfl
        · rw [alDel_cons, if_neg (fun hc => hlru_key hc.symm)]
          rw [alGet_cons, if_pos rfl]
        · intro e he
          have hme := (mem_llRemove.mp he).1
          exact Nat.ne_of_lt (hids e (by rw [hll]; exact hme))
    · refine ⟨(key, c.nextId) :: c.items, b :: l, rfl, ?_, ?_⟩
      · rw [alGet_cons, if_pos rfl]
      · intro e he
        exact Nat.ne_of_lt (hids e (by rw [hll]; exact he))

/-- Claim C8: `incrementBy` on an absent key creates the entry
`{key, value = delta (as int64), expiration = none}` at the front of
the sequence, enforces capacity exactly as `set` does (the same
eviction step), and returns `delta`; consequently, starting from a
well-formed shard with the key absent, `N` serial `INCR` calls return
`1, 2, …, N` in order. -/
theorem C8 :
    (∀ (c : Shard) (key : String) (delta : Int), alGet c.items key = none →
      c.incr key delta = (.ok delta,
        Shard.evictIfNeeded (Shard.mk ((key, c.nextId) :: c.items)
          (⟨c.nextId, key, .vint64 delta, 0⟩ :: c.ll)
          c.maxSize (c.nextId + 1) c.stopClosed))) ∧
    (∀ (c : Shard) (key : String) (N : Nat), WF c → alGet c.items key = none →
      (incrSeq c key N).1 = (List.range N).map (fun i => .ok (1 + (i : Int)))) := by
  constructor
  · intro c key delta h
    simp [Shard.incr, h, alPut_absent _ h]
  · intro c key N hwf h
    cases N with
    | zero => rfl
    | succ n =>
      have hstep : c.incr key 1 = (.ok 1,
          Shard.evictIfNeeded (Shard.mk ((key, c.nextId) :: c.items)
            (⟨c.nextId, key, .vint64 1, 0⟩ :: c.ll)
            c.maxSize (c.nextId + 1) c.stopClosed)) := by
        simp [Shard.incr, h, alPut_absent _ h]
      obtain ⟨items', tail, hshape, hlook, htail⟩ := evict_push_shape hwf key 1 h
      show (c.incr key 1).1 :: (incrSeq (c.incr key 1).2 key n).1 = _
      rw [hstep]
      show Except.ok 1 :: (incrSeq (Shard.evictIfNeeded _) key n).1 = _
      rw [hshape]
      rw [incrSeq_results key n items' tail c.nextId 1 c.maxSize (c.nextId + 1)
        c.stopClosed hlook htail]
      rw [range_map_shift n 1]

/-- Claim C8, witness: the absent-key step at a concrete shard, and
three serial INCRs on a fresh shard returning `[1, 2, 3]`. -/
theorem C8_witness :
    (emptyShard 5).incr "n" 4 = (.ok 4,
      Shard.evictIfNeeded (Shard.mk [("n", 0)] [⟨0, "n", .vint64 4, 0⟩] 5 1 false)) ∧
    (incrSeq (emptyShard 5) "n" 3).1 = [.ok 1, .ok 2, .ok 3] := by
  constructor
  · exact C8.1 (emptyShard 5) "n" 4 (by decide)
  · have hx := C8.2 (emptyShard 5) "n" 3 (by decide) (by decide)
    rw [hx]
    rfl

theorem alPair_key_inj {α : Type} {m : List (String × α)}
    (hd : (m.map Prod.fst).Nodup) {p q : String × α}
    (hp : p ∈ m) (hq : q ∈ m) (h : p.1 = q.1) : p = q := by
  induction m with
  | nil => cases hp
  | cons a t ih =>
    simp only [List.map_cons, List.nodup_cons] at hd
    rcases List.mem_cons.mp hp with rfl | hpt
    · rcases List.mem_cons.mp hq with rfl | hqt
      · rfl
      · exact absurd (List.mem_map.mpr ⟨q, hqt, h.symm⟩) hd.1
    · rcases List.mem_cons.mp hq with rfl | hqt
      · exact absurd (List.mem_map.mpr ⟨p, hpt, h⟩) hd.1
      · exact ih hd.2 hpt hqt

theorem delete_other {c : Shard} (hwf : WF c) {k k' : String} (hne : k ≠ k')
    {id : Nat} {e : Elem} (h : alGet c.items k = some id) (he : e ∈ c.ll) (hid : e.id = id) :
    alGet (c.delete k').items k = some id ∧ e ∈ (c.delete k').ll := by
  cases h2 : alGet c.items k' with
  | none =>
    have hst : c.delete k' = c := by simp [Shard.delete, h2]
    rw [hst]
    exact ⟨h, he⟩
  | some id2 =>
    obtain ⟨e2, he2, he2id, he2k, _⟩ := WF_lookup hwf h2
    obtain ⟨ek, hek, hekid, hekk, _⟩ := WF_lookup hwf h
    have hee : e = ek := elem_id_inj hwf.1 he hek (by rw [hid, hekid])
    have hne2 : e ≠ e2 := by
      intro hc
      apply hne
      rw [← hekk, ← hee, hc, he2k]
    have hidne : e.id ≠ id2 := by
      rw [← he2id]
      intro hc
      exact hne2 (elem_id_inj hwf.1 he he2 hc)
    constructor
    · have hst : (c.delete k').items = alDel c.items k' := by simp [Shard.delete, h2]
      rw [hst, alGet_alDel_ne _ hne]
      exact h
    · have hst : (c.delete k').ll = llRemove c.ll id2 := by simp [Shard.delete, h2]
      rw [hst]
      exact mem_llRemove.mpr ⟨he, hidne⟩

theorem foldl_delete_other {key : String} {id : Nat} {e : Elem} :
    ∀ (ks : List String) (c : Shard), WF c → (∀ k' ∈ ks, key ≠ k') →
      alGet c.items key = some id → e ∈ c.ll → e.id = id →
      alGet (ks.foldl Shard.delete c).items key = some id ∧
      e ∈ (ks.foldl Shard.delete c).ll := by
  intro ks
  induction ks with
  | nil =>
    intro c _ _ h he _
    exact ⟨h, he⟩
  | cons a t ih =>
    intro c hwf hks h he hid
    have h1 := delete_other hwf (hks a (List.mem_cons_self _ _)) h he hid
    exact ih (c.delete a) (WF_delete hwf a)
      (fun k' hk' => hks k' (List.mem_cons_of_mem _ hk')) h1.1 h1.2 hid

/-- Claim C10: an entry whose positive deadline equals the observation
instant exactly is still live — `get` returns its value and promotes it
to the front (`now > exp` is false), and `deleteExpired` does not
collect it (`exp < now` is false); only deadlines strictly before the
instant expire. -/
theorem C10 (c : Shard) (key : String) (now : Int) (id : Nat) (e : Elem)
    (hwf : WF c)
    (h : alGet c.items key = some id)
    (hf : c.ll.find? (fun x => x.id == id) = some e)
    (hpos : e.it.expiration > 0)
    (heq : e.it.expiration = now) :
    (c.get key now).1 = some e.it.value ∧
    (c.get key now).2.ll.head? = some e ∧
    alGet (c.get key now).2.items key = some id ∧
    alGet (c.deleteExpired now).items key = some id ∧
    e ∈ (c.deleteExpired now).ll := by
  have hnguard : ¬(e.it.expiration > 0 ∧ now > e.it.expiration) := by
    intro hc
    rw [heq] at hc
    exact lt_irrefl _ hc.2
  have hmtf : llMoveToFront c.ll id = e :: llRemove c.ll id := by
    rw [llMoveToFront, hf]
  refine ⟨?_, ?_, ?_, ?_, ?_⟩
  · simp [Shard.get, h, hf, hnguard]
  · have hst : (c.get key now).2.ll = llMoveToFront c.ll id := by
      simp [Shard.get, h, hf, hnguard]
    rw [hst, hmtf, List.head?_cons]
  · have hst : (c.get key now).2.items = c.items := by
      simp [Shard.get, h, hf, hnguard]
    rw [hst]
    exact h
  all_goals {
    have hmem : e ∈ c.ll := List.mem_of_find?_eq_some hf
    have hide : e.id = id := by simpa using List.find?_some hf
    have hguards : ∀ k' ∈ (c.items.filterMap (fun p =>
        match c.ll.find? (fun x => x.id == p.2) with
        | some e' => if e'.it.expiration > 0 ∧ e'.it.expiration < now then some p.1 else none
        | none => none)), key ≠ k' := by
      intro k' hk' hkeq
      obtain ⟨p, hp, hfp⟩ := List.mem_filterMap.mp hk'
      cases hfind : c.ll.find? (fun x => x.id == p.2) with
      | none =>
        rw [hfind] at hfp
        have hfp' : (none : Option String) = some k' := hfp
        cases hfp'
      | some e' =>
        rw [hfind] at hfp
        have hfp' : (if e'.it.expiration > 0 ∧ e'.it.expiration < now then some p.1 else none)
            = some k' := hfp
        by_cases hcond : e'.it.expiration > 0 ∧ e'.it.expiration < now
        · rw [if_pos hcond] at hfp'
          have hpk : p.1 = key := (Option.some_inj.mp hfp').trans hkeq.symm
          have hpq : p = (key, id) := alPair_key_inj hwf.2.2.2.1 hp (alGet_mem h) (by rw [hpk])
          rw [hpq] at hfind
          have hee : e' = e := Option.some_inj.mp ((hfind.symm.trans hf))
          rw [hee, heq] at hcond
          exact lt_irrefl _ hcond.2
        · rw [if_neg hcond] at hfp'
          cases hfp'
    have hres := foldl_delete_other _ c hwf hguards h hmem hide
    rw [Shard.deleteExpired]
    first
    | exact hres.1
    | exact hres.2
  }

/-- Claim C10, witness: an entry with deadline 7 observed at instant 7
is returned by `get` and survives `deleteExpired`. -/
theorem C10_witness :
    ((((emptyShard 3).set "k" (.vint64 9) 7)).get "k" 7).1 = some (.vint64 9) ∧
    ((((emptyShard 3).set "k" (.vint64 9) 7)).get "k" 7).2.ll.head? = some ⟨0, "k", .vint64 9, 7⟩ ∧
    alGet ((((emptyShard 3).set "k" (.vint64 9) 7)).get "k" 7).2.items "k" = some 0 ∧
    alGet ((((emptyShard 3).set "k" (.vint64 9) 7)).deleteExpired 7).items "k" = some 0 ∧
    (⟨0, "k", .vint64 9, 7⟩ : Elem) ∈ ((((emptyShard 3).set "k" (.vint64 9) 7)).deleteExpired 7).ll :=
  C10 ((emptyShard 3).set "k" (.vint64 9) 7) "k" 7 0 ⟨0, "k", .vint64 9, 7⟩
    (by decide) (by decide) (by decide) (by decide) (by decide)

/-- Claim C6, witness: the amended theorem at the two-entry shard of the
counterexample. -/
theorem C6_amended_witness :
    (∃ msg, ((((emptyShard 10).set "b" (.vstr "x") 0).set "a" (.vint64 1) 0).incr "b" 1).1
      = .error msg) ∧
    ((((emptyShard 10).set "b" (.vstr "x") 0).set "a" (.vint64 1) 0).incr "b" 1).2 =
      { (((emptyShard 10).set "b" (.vstr "x") 0).set "a" (.vint64 1) 0) with
        ll := llMoveToFront (((emptyShard 10).set "b" (.vstr "x") 0).set "a" (.vint64 1) 0).ll 0 } :=
  C6_amended _ "b" 1 0 ⟨0, "b", .vstr "x", 0⟩ (by decide) (by decide) (by decide)

/-! ## Claim C5 — LRU order -/

/-- Insert keys `k 0 … k (n-1)` (values `v i`, expirations `x i`) in
order with `set`. -/
def insertSeq (c : Shard) (k : Nat → String) (v : Nat → Value) (x : Nat → Int) : Nat → Shard
  | 0 => c
  | n + 1 => (insertSeq c k v x n).set (k n) (v n) (x n)

theorem rev_range_succ (m : Nat) :
    (List.range (m + 1)).reverse = m :: (List.range m).reverse := by
  rw [List.range_succ, List.reverse_append]
  rfl

theorem alGet_revRange {k : Nat → String} (hk : Function.Injective k) :
    ∀ (m j : Nat),
      alGet (((List.range m).reverse).map (fun i => (k i, i))) (k j)
        = if j < m then some j else none := by
  intro m
  induction m with
  | zero => intro j; simp [alGet]
  | succ m ih =>
    intro j
    rw [rev_range_succ, List.map_cons, alGet_cons]
    by_cases hjm : j = m
    · subst hjm
      rw [if_pos rfl, if_pos (Nat.lt_succ_self j)]
    · rw [if_neg (fun hc => hjm (hk hc).symm), ih j]
      by_cases hj : j < m
      · rw [if_pos hj, if_pos (Nat.lt_succ_of_lt hj)]
      · rw [if_neg hj, if_neg (by omega)]

/-- `set` with an absent key, unfolded. -/
theorem set_absent_eq {c : Shard} {key : String} (v : Value) (x : Int)
    (h : alGet c.items key = none) :
    c.set key v x = Shard.evictIfNeeded (Shard.mk ((key, c.nextId) :: c.items)
      (⟨c.nextId, key, v, x⟩ :: c.ll) c.maxSize (c.nextId + 1) c.stopClosed) := by
  simp [Shard.set, h, alPut_absent _ h]

/-- `evictIfNeeded`, unfolded when the guard holds and the victim is
known. -/
theorem evict_state_of {s : Shard} {lru : Elem}
    (hguard : s.maxSize > 0 ∧ (s.ll.length : Int) > s.maxSize)
    (hlast : s.ll.getLast? = some lru) :
    s.evictIfNeeded = { s with ll := llRemove s.ll lru.id, items := alDel s.items lru.it.key } := by
  rw [Shard.evictIfNeeded, if_pos hguard, hlast]

/-- `evictIfNeeded` is the identity when the shard is within capacity. -/
theorem evict_state_no {s : Shard}
    (h : ¬(s.maxSize > 0 ∧ (s.ll.length : Int) > s.maxSize)) :
    s.evictIfNeeded = s := by
  rw [Shard.evictIfNeeded, if_neg h]

/-- The exact shard state after inserting `n ≤ C` fresh keys into an
empty shard of capacity `C`: the recency list holds them newest first,
each entry's identity is its insertion rank. -/
theorem insertSeq_state {C : Nat} {k : Nat → String} (hk : Function.Injective k)
    (v : Nat → Value) (x : Nat → Int) :
    ∀ n, n ≤ C →
      insertSeq (emptyShard (C : Int)) k v x n =
        Shard.mk (((List.range n).reverse).map (fun i => (k i, i)))
          (((List.range n).reverse).map (fun i => ⟨i, k i, v i, x i⟩))
          (C : Int) n false := by
  intro n
  induction n with
  | zero =>
    intro _
    rfl
  | succ n ih =>
    intro hn
    show (insertSeq (emptyShard (C : Int)) k v x n).set (k n) (v n) (x n) = _
    rw [ih (Nat.le_of_succ_le hn)]
    have habs : alGet (((List.range n).reverse).map (fun i => (k i, i))) (k n) = none := by
      rw [alGet_revRange hk n n, if_neg (lt_irrefl n)]
    rw [set_absent_eq (v n) (x n) habs]
    rw [evict_state_no ?hno]
    case hno =>
      intro hc
      have hlen : ((((List.range n).reverse).map
          (fun i => (⟨i, k i, v i, x i⟩ : Elem))).length : Int) + 1 > (C : Int) := by
        simpa using hc.2
      simp only [List.length_map, List.length_reverse, List.length_range] at hlen
      omega
    show Shard.mk ((k n, n) :: _) ((⟨n, k n, v n, x n⟩ : Elem) :: _) _ _ _ = _
    rw [rev_range_succ, List.map_cons, List.map_cons]

theorem getLast?_cons_of_some {α : Type} (a : α) {l : List α} {b : α}
    (h : l.getLast? = some b) : (a :: l).getLast? = some b := by
  cases l with
  | nil => cases h
  | cons r t =>
    rw [List.getLast?_cons_cons]
    exact h

/-- The full state after inserting `C + 1` fresh keys into an empty
shard of capacity `C ≥ 1`: the oldest entry (rank 0) has been evicted. -/
theorem insertSeq_overflow_state {C : Nat} (hC : 1 ≤ C) {k : Nat → String}
    (hk : Function.Injective k) (v : Nat → Value) (x : Nat → Int) :
    insertSeq (emptyShard (C : Int)) k v x (C + 1) =
      Shard.mk (alDel (((List.range (C + 1)).reverse).map (fun i => (k i, i))) (k 0))
        (llRemove (((List.range (C + 1)).reverse).map (fun i => ⟨i, k i, v i, x i⟩)) 0)
        (C : Int) (C + 1) false := by
  show (insertSeq (emptyShard (C : Int)) k v x C).set (k C) (v C) (x C) = _
  rw [insertSeq_state hk v x C le_rfl]
  have habs : alGet (((List.range C).reverse).map (fun i => (k i, i))) (k C) = none := by
    rw [alGet_revRange hk C C, if_neg (lt_irrefl C)]
  rw [set_absent_eq (v C) (x C) habs]
  have hllshape : (⟨C, k C, v C, x C⟩ : Elem) ::
      ((List.range C).reverse).map (fun i => ⟨i, k i, v i, x i⟩)
      = ((List.range (C + 1)).reverse).map (fun i => ⟨i, k i, v i, x i⟩) := by
    rw [rev_range_succ, List.map_cons]
  have hitshape : (k C, C) :: ((List.range C).reverse).map (fun i => (k i, i))
      = ((List.range (C + 1)).reverse).map (fun i => (k i, i)) := by
    rw [rev_range_succ, List.map_cons]
  have hguard : ((C : Int) > 0) ∧
      ((((⟨C, k C, v C, x C⟩ : Elem) ::
        ((List.range C).reverse).map (fun i => ⟨i, k i, v i, x i⟩)).length : Int) > (C : Int)) := by
    constructor
    · exact_mod_cast hC
    · simp only [List.length_cons, List.length_map, List.length_reverse, List.length_range]
      push_cast
      omega
  have hlast : ((⟨C, k C, v C, x C⟩ : Elem) ::
      ((List.range C).reverse).map (fun i => ⟨i, k i, v i, x i⟩)).getLast?
      = some ⟨0, k 0, v 0, x 0⟩ := by
    rw [hllshape, List.getLast?_map, List.getLast?_reverse]
    have hh : (List.range (C + 1)).head? = some 0 := by
      rw [List.range_succ_eq_map]
      rfl
    rw [hh]
    rfl
  rw [evict_state_of hguard hlast]
  show Shard.mk _ _ _ _ _ = _
  rw [hllshape, hitshape]

theorem ll_ids_revRange (k : Nat → String) (v : Nat → Value) (x : Nat → Int) (m : Nat) :
    ((((List.range m).reverse).map (fun i => (⟨i, k i, v i, x i⟩ : Elem))).map Elem.id)
      = (List.range m).reverse := by
  rw [List.map_map]
  have hcomp : (Elem.id ∘ fun i => (⟨i, k i, v i, x i⟩ : Elem)) = fun (i : Nat) => i := rfl
  rw [hcomp, List.map_id']

/-- The full state after `C` inserts, a `get` of the oldest key, and one
more fresh insert, for `C = m + 2`: the victim is the entry of rank 1
(the claim's `k2`), because the `get` moved rank 0 to the front. -/
theorem insertSeq_get_overflow_state {k : Nat → String} (hk : Function.Injective k)
    (v : Nat → Value) (x : Nat → Int) (now : Int)
    (hx0 : ¬(x 0 > 0 ∧ now > x 0)) (m : Nat) :
    ((insertSeq (emptyShard ((m + 2 : Nat) : Int)) k v x (m + 2)).get (k 0) now).2.set
        (k (m + 2)) (v (m + 2)) (x (m + 2)) =
      Shard.mk (alDel (((List.range (m + 3)).reverse).map (fun i => (k i, i))) (k 1))
        (llRemove ((⟨m + 2, k (m + 2), v (m + 2), x (m + 2)⟩ : Elem) ::
          (⟨0, k 0, v 0, x 0⟩ : Elem) ::
          llRemove (((List.range (m + 2)).reverse).map (fun i => ⟨i, k i, v i, x i⟩)) 0) 1)
        ((m + 2 : Nat) : Int) (m + 3) false := by
  rw [insertSeq_state hk v x (m + 2) le_rfl]
  have halget : alGet (((List.range (m + 2)).reverse).map (fun i => (k i, i))) (k 0)
      = some 0 := by
    rw [alGet_revRange hk (m + 2) 0, if_pos (by omega)]
  have hids : ((((List.range (m + 2)).reverse).map
      (fun i => (⟨i, k i, v i, x i⟩ : Elem))).map Elem.id).Nodup := by
    rw [ll_ids_revRange]
    simp [List.nodup_range]
  have hmem : (⟨0, k 0, v 0, x 0⟩ : Elem) ∈
      ((List.range (m + 2)).reverse).map (fun i => (⟨i, k i, v i, x i⟩ : Elem)) :=
    List.mem_map.mpr ⟨0, by simp, rfl⟩
  have hfind : (((List.range (m + 2)).reverse).map
      (fun i => (⟨i, k i, v i, x i⟩ : Elem))).find? (fun e => e.id == 0)
      = some ⟨0, k 0, v 0, x 0⟩ := by
    have := find?_eq_of_mem_nodup hids hmem
    simpa using this
  have hmtf : llMoveToFront (((List.range (m + 2)).reverse).map
      (fun i => (⟨i, k i, v i, x i⟩ : Elem))) 0
      = ⟨0, k 0, v 0, x 0⟩ ::
        llRemove (((List.range (m + 2)).reverse).map (fun i => ⟨i, k i, v i, x i⟩)) 0 := by
    rw [llMoveToFront, hfind]
  have hget2 : ((Shard.mk (((List.range (m + 2)).reverse).map (fun i => (k i, i)))
      (((List.range (m + 2)).reverse).map (fun i => ⟨i, k i, v i, x i⟩))
      ((m + 2 : Nat) : Int) (m + 2) false).get (k 0) now).2
      = Shard.mk (((List.range (m + 2)).reverse).map (fun i => (k i, i)))
        ((⟨0, k 0, v 0, x 0⟩ : Elem) ::
          llRemove (((List.range (m + 2)).reverse).map (fun i => ⟨i, k i, v i, x i⟩)) 0)
        ((m + 2 : Nat) : Int) (m + 2) false := by
    simp only [Shard.get, halget, hfind]
    rw [if_neg hx0, hmtf]
  rw [hget2]
  have habs2 : alGet (((List.range (m + 2)).reverse).map (fun i => (k i, i))) (k (m + 2))
      = none := by
    rw [alGet_revRange hk (m + 2) (m + 2), if_neg (lt_irrefl _)]
  rw [set_absent_eq (v (m + 2)) (x (m + 2)) habs2]
  have hrest : llRemove (((List.range (m + 2)).reverse).map
      (fun i => (⟨i, k i, v i, x i⟩ : Elem))) 0
      = ((List.range (m + 1)).map Nat.succ).reverse.map
          (fun i => (⟨i, k i, v i, x i⟩ : Elem)) := by
    rw [llRemove, List.filter_map]
    have hcomp : ((fun (e : Elem) => decide (e.id ≠ 0)) ∘ fun i => (⟨i, k i, v i, x i⟩ : Elem))
        = fun (i : Nat) => decide (i ≠ 0) := rfl
    rw [hcomp, List.filter_reverse]
    have hfl : (List.range (m + 2)).filter (fun (i : Nat) => decide (i ≠ 0))
        = (List.range (m + 1)).map Nat.succ := by
      rw [List.range_succ_eq_map, List.filter_cons]
      rw [if_neg (by simp)]
      apply List.filter_eq_self.mpr
      intro a ha
      obtain ⟨i, _, rfl⟩ := List.mem_map.mp ha
      simp
    rw [hfl]
  have hrest_last : (llRemove (((List.range (m + 2)).reverse).map
      (fun i => (⟨i, k i, v i, x i⟩ : Elem))) 0).getLast?
      = some ⟨1, k 1, v 1, x 1⟩ := by
    rw [hrest, List.getLast?_map, List.getLast?_reverse, List.head?_map]
    have hh : (List.range (m + 1)).head? = some 0 := by
      rw [List.range_succ_eq_map]
      rfl
    rw [hh]
    rfl
  have hlenrem : (llRemove (((List.range (m + 2)).reverse).map
      (fun i => (⟨i, k i, v i, x i⟩ : Elem))) 0).length + 1
      = (((List.range (m + 2)).reverse).map (fun i => (⟨i, k i, v i, x i⟩ : Elem))).length := by
    have := llRemove_length_of_mem hids hmem
    simpa using this
  have hguard : (((m + 2 : Nat) : Int) > 0) ∧
      ((((⟨m + 2, k (m + 2), v (m + 2), x (m + 2)⟩ : Elem) ::
        (⟨0, k 0, v 0, x 0⟩ : Elem) ::
        llRemove (((List.range (m + 2)).reverse).map (fun i => ⟨i, k i, v i, x i⟩)) 0).length : Int)
        > ((m + 2 : Nat) : Int)) := by
    constructor
    · push_cast
      omega
    · simp only [List.length_cons]
      simp only [List.length_map, List.length_reverse, List.length_range] at hlenrem
      push_cast
      omega
  have hlast : ((⟨m + 2, k (m + 2), v (m + 2), x (m + 2)⟩ : Elem) ::
      (⟨0, k 0, v 0, x 0⟩ : Elem) ::
      llRemove (((List.range (m + 2)).reverse).map (fun i => ⟨i, k i, v i, x i⟩)) 0).getLast?
      = some ⟨1, k 1, v 1, x 1⟩ :=
    getLast?_cons_of_some _ (getLast?_cons_of_some _ hrest_last)
  rw [evict_state_of hguard hlast]
  show Shard.mk _ _ _ _ _ = _
  have hitshape : ((List.range (m + 3)).reverse).map (fun i => (k i, i))
      = (k (m + 2), m + 2) :: ((List.range (m + 2)).reverse).map (fun i => (k i, i)) := by
    have h3 : (List.range (m + 3)).reverse = (m + 2) :: (List.range (m + 2)).reverse :=
      rev_range_succ (m + 2)
    rw [h3, List.map_cons]
  rw [hitshape]

/-- Claim C5, amended: part one holds for every capacity `C ≥ 1`:
inserting `C+1` distinct unexpired keys `k 0 … k C` in order evicts
exactly the first key and no other.  Part two requires `C ≥ 2`: if a
`get (k 0)` happens between the Cth and the (C+1)st insert, the
(C+1)st insert evicts exactly the second key `k 1`, because `get` moved
`k 0` to the front and `set` evicts the back entry.  (At `C = 1` the
back entry after the `get` is `k 0` itself, so the code evicts `k 0`,
not `k 1` — see the counterexample.) -/
theorem C5_amended (C : Nat) (hC : 1 ≤ C) (k : Nat → String) (hk : Function.Injective k)
    (v : Nat → Value) (x : Nat → Int) (now : Int) (hx0 : ¬(x 0 > 0 ∧ now > x 0)) :
    (alGet (insertSeq (emptyShard (C : Int)) k v x (C + 1)).items (k 0) = none ∧
     (∀ e ∈ (insertSeq (emptyShard (C : Int)) k v x (C + 1)).ll, e.it.key ≠ k 0) ∧
     (∀ i, 1 ≤ i → i ≤ C →
       (alGet (insertSeq (emptyShard (C : Int)) k v x (C + 1)).items (k i)).isSome = true)) ∧
    (2 ≤ C →
      (alGet (((insertSeq (emptyShard (C : Int)) k v x C).get (k 0) now).2.set
          (k C) (v C) (x C)).items (k 1) = none ∧
       (alGet (((insertSeq (emptyShard (C : Int)) k v x C).get (k 0) now).2.set
          (k C) (v C) (x C)).items (k 0)).isSome = true ∧
       (∀ i, 2 ≤ i → i ≤ C →
         (alGet (((insertSeq (emptyShard (C : Int)) k v x C).get (k 0) now).2.set
            (k C) (v C) (x C)).items (k i)).isSome = true))) := by
  constructor
  · rw [insertSeq_overflow_state hC hk v x]
    refine ⟨?_, ?_, ?_⟩
    · exact alGet_alDel_self _ _
    · intro e he hkey
      obtain ⟨hm, hne⟩ := mem_llRemove.mp he
      obtain ⟨i, _, rfl⟩ := List.mem_map.mp hm
      exact hne (by simpa using hk hkey)
    · intro i h1 h2
      have hne : k i ≠ k 0 := fun hc => by
        have := hk hc
        omega
      rw [alGet_alDel_ne _ hne, alGet_revRange hk (C + 1) i, if_pos (by omega)]
      rfl
  · intro hC2
    obtain ⟨m, rfl⟩ : ∃ m, C = m + 2 := ⟨C - 2, by omega⟩
    rw [insertSeq_get_overflow_state hk v x now hx0 m]
    refine ⟨?_, ?_, ?_⟩
    · exact alGet_alDel_self _ _
    · have hne : k 0 ≠ k 1 := fun hc => by
        have := hk hc
        omega
      rw [alGet_alDel_ne _ hne, alGet_revRange hk (m + 3) 0, if_pos (by omega)]
      rfl
    · intro i h1 h2
      have hne : k i ≠ k 1 := fun hc => by
        have := hk hc
        omega
      rw [alGet_alDel_ne _ hne, alGet_revRange hk (m + 3) i, if_pos (by omega)]
      rfl

/-- Claim C5, witness: the amended theorem at `C = 2` with keys
`"", "a", "aa"`: the plain overflow evicts `""` (the first key), and
with a `get ""` in between the third insert evicts `"a"` (the second
key). -/
theorem C5_amended_witness :
    alGet (insertSeq (emptyShard ((2 : Nat) : Int))
        (fun n => String.mk (List.replicate n 'a')) (fun _ => .vint64 0) (fun _ => 0) 3).items
      (String.mk (List.replicate 0 'a')) = none ∧
    alGet (((insertSeq (emptyShard ((2 : Nat) : Int))
        (fun n => String.mk (List.replicate n 'a')) (fun _ => .vint64 0) (fun _ => 0) 2).get
        (String.mk (List.replicate 0 'a')) 5).2.set (String.mk (List.replicate 2 'a'))
        (.vint64 0) 0).items (String.mk (List.replicate 1 'a')) = none := by
  have h := C5_amended 2 (by omega) (fun n => String.mk (List.replicate n 'a'))
    (fun a b hab => by simpa using congrArg (fun s => s.data.length) hab)
    (fun _ => .vint64 0) (fun _ => 0) 5 (by decide)
  exact ⟨h.1.1, (h.2 (by omega)).1⟩

/-- Claim C5, counterexample: with capacity `C = 1` the second half of
the claim fails.  Insert `k1 = "a"`, `get "a"`, insert `k2 = "b"`: the
code evicts `k1` (the back entry is `"a"` itself), not `k2` — `"a"` is
gone and `"b"` is present, while the claim says `k2` would be evicted
instead. -/
theorem C5_counterexample :
    alGet ((((emptyShard 1).set "a" (.vint64 1) 0).get "a" 5).2.set "b" (.vint64 2) 0).items "a"
      = none ∧
    (alGet ((((emptyShard 1).set "a" (.vint64 1) 0).get "a" 5).2.set "b" (.vint64 2) 0).items "b").isSome
      = true := by
  constructor
  · decide
  · decide

/-! ## Claim C4 — snapshot round-trip

First the codec round-trip laws, then the characterization of the
collection pass (`SaveToFile`) and the redistribution pass
(`LoadFromFile`). -/

theorem decodeInt_encodeInt (i : Int) (r : List Nat) :
    decodeInt (encodeInt i ++ r) = some (i, r) := by
  rw [encodeInt]
  by_cases h : i < 0
  · rw [if_pos h]
    show decodeInt (1 :: (-i).toNat :: r) = some (i, r)
    rw [decodeInt]
    congr 2
    have : ((-i).toNat : Int) = -i := Int.toNat_of_nonneg (by omega)
    omega
  · rw [if_neg h]
    show decodeInt (0 :: i.toNat :: r) = some (i, r)
    rw [decodeInt]
    congr 2
    exact Int.toNat_of_nonneg (by omega)

theorem decodeChars_encode (cs : List Char) (r : List Nat) :
    decodeChars cs.length (cs.map Char.toNat ++ r) = some (cs, r) := by
  induction cs with
  | nil => rfl
  | cons c t ih =>
    show decodeChars (t.length + 1) (c.toNat :: (t.map Char.toNat ++ r)) = _
    rw [decodeChars, ih, Char.ofNat_toNat]

theorem decodeString_encodeString (s : String) (r : List Nat) :
    decodeString (encodeString s ++ r) = some (s, r) := by
  show decodeString (s.length :: (s.data.map Char.toNat ++ r)) = some (s, r)
  rw [decodeString]
  have hl : s.length = s.data.length := rfl
  rw [hl, decodeChars_encode s.data r]

theorem decodeValue_encodeValue (v : Value) (b r : List Nat)
    (h : encodeValue v = .ok b) : decodeValue (b ++ r) = some (v, r) := by
  cases v with
  | vint64 n =>
    injection h with hb
    subst hb
    show decodeValue (0 :: (encodeInt n ++ r)) = _
    rw [decodeValue, decodeInt_encodeInt]
    rfl
  | vint n =>
    injection h with hb
    subst hb
    show decodeValue (1 :: (encodeInt n ++ r)) = _
    rw [decodeValue, decodeInt_encodeInt]
    rfl
  | vint32 n =>
    injection h with hb
    subst hb
    show decodeValue (2 :: (encodeInt n ++ r)) = _
    rw [decodeValue, decodeInt_encodeInt]
    rfl
  | vstr s =>
    injection h with hb
    subst hb
    show decodeValue (3 :: (encodeString s ++ r)) = _
    rw [decodeValue, decodeString_encodeString]
    rfl
  | vother => exact Except.noConfusion h

theorem decodeItem_encodeItem (it : Item) (b r : List Nat)
    (h : encodeItem it = .ok b) : decodeItem (b ++ r) = some (it, r) := by
  rw [encodeItem] at h
  cases hv : encodeValue it.value with
  | error e => rw [hv] at h; exact Except.noConfusion h
  | ok vb =>
    rw [hv] at h
    injection h with hb
    subst hb
    have h2 := decodeValue_encodeValue it.value vb (encodeInt it.expiration ++ r) hv
    simp only [decodeItem, List.append_assoc, decodeString_encodeString, h2,
      decodeInt_encodeInt]

theorem decodeEntries_encode (m : List (String × Item)) :
    ∀ (b r : List Nat), encodeEntries m = .ok b →
      decodeEntries m.length (b ++ r) = some (m, r) := by
  induction m with
  | nil =>
    intro b r h
    injection h with hb
    subst hb
    rfl
  | cons p t ih =>
    intro b r h
    simp only [encodeEntries] at h
    cases hi : encodeItem p.2 with
    | error e => rw [hi] at h; exact Except.noConfusion h
    | ok ib =>
      rw [hi] at h
      cases ht : encodeEntries t with
      | error e => rw [ht] at h; exact Except.noConfusion h
      | ok tb =>
        rw [ht] at h
        injection h with hb
        subst hb
        show decodeEntries (t.length + 1)
          ((encodeString p.1 ++ ib ++ tb) ++ r) = _
        have h2 := decodeItem_encodeItem p.2 ib (tb ++ r) hi
        have h3 := ih tb r ht
        simp only [decodeEntries, List.append_assoc, decodeString_encodeString, h2, h3]

theorem decodeDump_encodeDump (m : List (String × Item)) (f : List Nat)
    (h : encodeDump m = .ok f) : decodeDump f = some m := by
  rw [encodeDump] at h
  cases he : encodeEntries m with
  | error e => rw [he] at h; exact Except.noConfusion h
  | ok eb =>
    rw [he] at h
    injection h with hf
    subst hf
    rw [decodeDump]
    have h1 := decodeEntries_encode m eb [] he
    rw [List.append_nil] at h1
    rw [h1]

theorem encodeValue_ok {v : Value} (h : gobRegistered v = true) :
    ∃ b, encodeValue v = .ok b := by
  cases v with
  | vint64 n => exact ⟨_, rfl⟩
  | vint n => exact ⟨_, rfl⟩
  | vint32 n => exact ⟨_, rfl⟩
  | vstr s => exact ⟨_, rfl⟩
  | vother => exact absurd h (by decide)

theorem encodeEntries_ok (m : List (String × Item))
    (h : ∀ q ∈ m, gobRegistered q.2.value = true) :
    ∃ b, encodeEntries m = .ok b := by
  induction m with
  | nil => exact ⟨[], rfl⟩
  | cons p t ih =>
    obtain ⟨vb, hvb⟩ := encodeValue_ok (h p (List.mem_cons_self _ _))
    obtain ⟨tb, htb⟩ := ih (fun q hq => h q (List.mem_cons_of_mem _ hq))
    have hitem : encodeItem p.2 = .ok (encodeString p.2.key ++ vb ++ encodeInt p.2.expiration) := by
      rw [encodeItem, hvb]
    exact ⟨encodeString p.1 ++ (encodeString p.2.key ++ vb ++ encodeInt p.2.expiration) ++ tb,
      by simp only [encodeEntries, hitem, htb]⟩

theorem encodeDump_ok (m : List (String × Item))
    (h : ∀ q ∈ m, gobRegistered q.2.value = true) :
    ∃ f, encodeDump m = .ok f := by
  obtain ⟨b, hb⟩ := encodeEntries_ok m h
  exact ⟨m.length :: b, by rw [encodeDump, hb]⟩

/-- A shard's contribution to the snapshot: the `(key, item)` pair each
index entry dereferences to. -/
def shardPairs (sh : Shard) : List (String × Item) :=
  sh.items.filterMap (fun p =>
    (sh.ll.find? (fun e => e.id == p.2)).map (fun e => (e.it.key, e.it)))

/-- Accumulate pairs into a map, later entries overwriting earlier ones
(the `itemsToSave[it.Key] = it` loop). -/
def alPutAll (acc : List (String × Item)) (ps : List (String × Item)) : List (String × Item) :=
  ps.foldl (fun a p => alPut a p.1 p.2) acc

theorem alPutAll_append (acc : List (String × Item)) (l1 l2 : List (String × Item)) :
    alPutAll acc (l1 ++ l2) = alPutAll (alPutAll acc l1) l2 :=
  List.foldl_append ..

theorem mem_alPut {α : Type} {a : List (String × α)} {k : String} {v : α} {q : String × α}
    (h : q ∈ alPut a k v) : q = (k, v) ∨ q ∈ a := by
  rcases List.mem_cons.mp h with rfl | hmem
  · exact Or.inl rfl
  · exact Or.inr (List.mem_of_mem_filter hmem)

theorem alPutAll_prop {P : String × Item → Prop} :
    ∀ (ps acc : List (String × Item)), (∀ q ∈ acc, P q) → (∀ q ∈ ps, P q) →
      ∀ q ∈ alPutAll acc ps, P q := by
  intro ps
  induction ps with
  | nil => intro acc hacc _ q hq; exact hacc q hq
  | cons p t ih =>
    intro acc hacc hps q hq
    refine ih (alPut acc p.1 p.2) ?_ (fun q' hq' => hps q' (List.mem_cons_of_mem _ hq')) q hq
    intro q' hq'
    rcases mem_alPut hq' with heq | hmem
    · rw [heq]; exact hps p (List.mem_cons_self _ _)
    · exact hacc q' hmem

theorem alPutAll_keys_nodup :
    ∀ (ps acc : List (String × Item)), (acc.map Prod.fst).Nodup →
      ((alPutAll acc ps).map Prod.fst).Nodup := by
  intro ps
  induction ps with
  | nil => intro acc h; exact h
  | cons p t ih =>
    intro acc h
    exact ih (alPut acc p.1 p.2) (alPut_keys_nodup p.1 p.2 h)

theorem alGet_alPutAll_not_mem {k : String} :
    ∀ (ps acc : List (String × Item)), k ∉ ps.map Prod.fst →
      alGet (alPutAll acc ps) k = alGet acc k := by
  intro ps
  induction ps with
  | nil => intro acc _; rfl
  | cons p t ih =>
    intro acc hk
    rw [List.map_cons] at hk
    have h1 : k ∉ t.map Prod.fst := fun hc => hk (List.mem_cons_of_mem _ hc)
    have h2 : p.1 ≠ k := fun hc => hk (by rw [hc]; exact List.mem_cons_self _ _)
    show alGet (alPutAll (alPut acc p.1 p.2) t) k = alGet acc k
    rw [ih (alPut acc p.1 p.2) h1, alGet_alPut_ne _ _ (fun hc => h2 hc.symm)]

theorem alGet_alPutAll_unique {k : String} {it : Item} :
    ∀ (ps acc : List (String × Item)), (∀ q ∈ ps, q.1 = k → q.2 = it) → (k, it) ∈ ps →
      alGet (alPutAll acc ps) k = some it := by
  intro ps
  induction ps with
  | nil => intro acc _ hmem; cases hmem
  | cons p t ih =>
    intro acc huniq hmem
    by_cases hk : k ∈ t.map Prod.fst
    · obtain ⟨q, hq, hqk⟩ := List.mem_map.mp hk
      have hqit : q.2 = it := huniq q (List.mem_cons_of_mem _ hq) hqk
      have hqeq : q = (k, it) := by
        obtain ⟨q1, q2⟩ := q
        simp only at hqk hqit
        rw [hqk, hqit]
      show alGet (alPutAll (alPut acc p.1 p.2) t) k = some it
      exact ih (alPut acc p.1 p.2) (fun q' hq' => huniq q' (List.mem_cons_of_mem _ hq'))
        (hqeq ▸ hq)
    · rcases List.mem_cons.mp hmem with hp | ht
      · show alGet (alPutAll (alPut acc p.1 p.2) t) k = some it
        rw [alGet_alPutAll_not_mem t _ hk, ← hp, alGet_alPut_self]
      · exact absurd (List.mem_map.mpr ⟨(k, it), ht, rfl⟩) hk

/-- The collection pass is the fold of `alPut` over all shards'
dereferenced pairs. -/
theorem snapshot_eq (sc : ShardedCache) :
    sc.snapshotItems = alPutAll [] ((sc.shards.map shardPairs).flatten) := by
  rw [ShardedCache.snapshotItems]
  suffices h : ∀ (shs : List Shard) (acc : List (String × Item)),
      shs.foldl (fun acc sh => sh.items.foldl (fun acc p =>
        match sh.ll.find? (fun e => e.id == p.2) with
        | some e => alPut acc e.it.key e.it
        | none => acc) acc) acc
      = alPutAll acc ((shs.map shardPairs).flatten) by
    exact h sc.shards []
  have hinner : ∀ (sh : Shard) (items : List (String × Nat)) (acc : List (String × Item)),
      items.foldl (fun acc p =>
        match sh.ll.find? (fun e => e.id == p.2) with
        | some e => alPut acc e.it.key e.it
        | none => acc) acc
      = alPutAll acc (items.filterMap (fun p =>
          (sh.ll.find? (fun e => e.id == p.2)).map (fun e => (e.it.key, e.it)))) := by
    intro sh items
    induction items with
    | nil => intro acc; rfl
    | cons p t ihp =>
      intro acc
      rw [List.foldl_cons, List.filterMap_cons]
      cases hf : sh.ll.find? (fun e => e.id == p.2) with
      | none =>
        simp only [hf, Option.map_none']
        exact ihp acc
      | some e =>
        simp only [hf, Option.map_some']
        exact ihp (alPut acc e.it.key e.it)
  intro shs
  induction shs with
  | nil => intro acc; rfl
  | cons sh t ih =>
    intro acc
    rw [List.foldl_cons, List.map_cons, List.flatten_cons, alPutAll_append]
    rw [hinner sh sh.items acc]
    exact ih _

theorem mem_of_getElem? {α : Type} {l : List α} {n : Nat} {a : α}
    (h : l[n]? = some a) : a ∈ l := by
  have hlt : n < l.length := by
    by_contra hge
    rw [List.getElem?_eq_none (Nat.le_of_not_lt hge)] at h
    cases h
  rw [List.getElem?_eq_getElem hlt] at h
  rw [← Option.some_inj.mp h]
  exact List.getElem_mem hlt

theorem elem_key_inj {ll : List Elem} (hd : (ll.map (fun e => e.it.key)).Nodup)
    {e1 e2 : Elem} (h1 : e1 ∈ ll) (h2 : e2 ∈ ll) (h : e1.it.key = e2.it.key) : e1 = e2 := by
  induction ll with
  | nil => cases h1
  | cons a t ih =>
    simp only [List.map_cons, List.nodup_cons] at hd
    rcases List.mem_cons.mp h1 with rfl | h1t
    · rcases List.mem_cons.mp h2 with rfl | h2t
      · rfl
      · exact absurd (List.mem_map.mpr ⟨e2, h2t, h.symm⟩) hd.1
    · rcases List.mem_cons.mp h2 with rfl | h2t
      · exact absurd (List.mem_map.mpr ⟨e1, h1t, h⟩) hd.1
      · exact ih hd.2 h1t h2t

/-- Whole-cache well-formedness: the recorded shard count is positive
and matches the slice length, every shard satisfies `WF`, and every
shard holds only the keys the hash router assigns to it. -/
def CacheWF (sc : ShardedCache) : Prop :=
  sc.shards.length = sc.shardCount ∧
  0 < sc.shardCount ∧
  (∀ sh ∈ sc.shards, WF sh) ∧
  (∀ i sh, sc.shards[i]? = some sh → ∀ e ∈ sh.ll, sc.shardIndexOf e.it.key = i)

/-- A cache whose shards are all empty (what `NewShardedCache`
produces before any traffic). -/
def EmptyCache (sc : ShardedCache) : Prop :=
  sc.shards.length = sc.shardCount ∧
  0 < sc.shardCount ∧
  ∀ sh ∈ sc.shards, sh.items = [] ∧ sh.ll = []

/-- `it` is retrievable under key `k`: the owning shard exists and its
index maps `k` to a live element carrying `it`. -/
def LookupOK (sc : ShardedCache) (k : String) (it : Item) : Prop :=
  ∃ sh, sc.shards[sc.shardIndexOf k]? = some sh ∧
    ∃ id, alGet sh.items k = some id ∧
      ∃ e, sh.ll.find? (fun x => x.id == id) = some e ∧ e.it = it

/-- The structural facts preserved by every load step: positive matching
shard count, and each shard's live ids below its allocator. -/
def LoadQ (sc : ShardedCache) : Prop :=
  sc.shards.length = sc.shardCount ∧
  0 < sc.shardCount ∧
  ∀ sh ∈ sc.shards, ∀ e ∈ sh.ll, e.id < sh.nextId

theorem LoadQ_of_empty {sc : ShardedCache} (h : EmptyCache sc) : LoadQ sc := by
  obtain ⟨h1, h2, h3⟩ := h
  refine ⟨h1, h2, ?_⟩
  intro sh hsh e he
  rw [(h3 sh hsh).2] at he
  cases he

theorem LoadQ_step {sc : ShardedCache} (h : LoadQ sc) (p : String × Item) :
    LoadQ (sc.loadStep p) := by
  obtain ⟨h1, h2, h3⟩ := h
  rw [ShardedCache.loadStep]
  cases hsh : sc.shards[sc.shardIndexOf p.2.key]? with
  | none => exact ⟨h1, h2, h3⟩
  | some sh =>
    refine ⟨by simpa [List.length_set] using h1, h2, ?_⟩
    intro sh' hsh' e he
    rcases List.mem_or_eq_of_mem_set hsh' with hold | rfl
    · exact h3 sh' hold e he
    · rcases List.mem_cons.mp he with rfl | het
      · exact Nat.lt_succ_self _
      · exact Nat.lt_succ_of_lt (h3 sh (mem_of_getElem? hsh) e het)

/-- A load step makes its own entry retrievable: the item is pushed at
the front of the owning shard and its index pointer overwritten. -/
theorem lookupOK_step_self {sc : ShardedCache} (h : LoadQ sc) (p : String × Item) :
    LookupOK (sc.loadStep p) p.2.key p.2 := by
  obtain ⟨h1, h2, _⟩ := h
  have hidx : sc.shardIndexOf p.2.key < sc.shards.length := by
    rw [h1]
    exact Nat.mod_lt _ h2
  have hsh : sc.shards[sc.shardIndexOf p.2.key]? = some sc.shards[sc.shardIndexOf p.2.key] :=
    List.getElem?_eq_getElem hidx
  rw [LookupOK, loadStep_shardIndexOf]
  rw [ShardedCache.loadStep, hsh]
  set sh := sc.shards[sc.shardIndexOf p.2.key] with hshdef
  refine ⟨Shard.mk (alPut sh.items p.2.key sh.nextId) (⟨sh.nextId, p.2⟩ :: sh.ll)
      sh.maxSize (sh.nextId + 1) sh.stopClosed, ?_,
    sh.nextId, alGet_alPut_self _ _ _, ⟨sh.nextId, p.2⟩, ?_, rfl⟩
  · show (sc.shards.set _ _)[sc.shardIndexOf p.2.key]? = _
    rw [List.getElem?_set_self', hsh]
    rfl
  · show (⟨sh.nextId, p.2⟩ :: sh.ll).find? (fun x => x.id == sh.nextId) = _
    rw [List.find?_cons_of_pos]
    simp

/-- A load step whose key differs from `k` leaves `k`'s lookup intact. -/
theorem lookupOK_step_other {sc : ShardedCache} {k : String} {it : Item}
    (hq : LoadQ sc) (hl : LookupOK sc k it) (p : String × Item) (hne : p.2.key ≠ k) :
    LookupOK (sc.loadStep p) k it := by
  obtain ⟨sh, hsh, id, hget, e, hfind, hit⟩ := hl
  rw [LookupOK, loadStep_shardIndexOf]
  rw [ShardedCache.loadStep]
  cases hsh0 : sc.shards[sc.shardIndexOf p.2.key]? with
  | none => exact ⟨sh, hsh, id, hget, e, hfind, hit⟩
  | some sh0 =>
    by_cases heq : sc.shardIndexOf p.2.key = sc.shardIndexOf k
    · rw [heq] at hsh0
      have hsh0' : sh0 = sh := Option.some_inj.mp (hsh0.symm.trans hsh)
      subst hsh0'
      refine ⟨Shard.mk (alPut sh0.items p.2.key sh0.nextId) (⟨sh0.nextId, p.2⟩ :: sh0.ll)
          sh0.maxSize (sh0.nextId + 1) sh0.stopClosed, ?_, id, ?_, e, ?_, hit⟩
      · show (sc.shards.set _ _)[sc.shardIndexOf k]? = _
        rw [← heq, List.getElem?_set_self', heq, hsh]
        rfl
      · exact (alGet_alPut_ne _ _ (Ne.symm hne)).trans hget
      · have hlt : id < sh0.nextId := by
          have he := List.mem_of_find?_eq_some hfind
          have hid := List.find?_some hfind
          simp only [beq_iff_eq] at hid
          rw [← hid]
          exact hq.2.2 sh0 (mem_of_getElem? hsh) e he
        rw [List.find?_cons_of_neg]
        · exact hfind
        · simp
          omega
    · refine ⟨sh, ?_, id, hget, e, hfind, hit⟩
      show (sc.shards.set _ _)[sc.shardIndexOf k]? = _
      rw [List.getElem?_set_ne heq, hsh]

/-- Lookups survive a whole redistribution pass whose keys all differ
from `k`. -/
theorem lookupOK_loadItems_preserved {k : String} {it : Item} :
    ∀ (m : List (String × Item)) (sc : ShardedCache), LoadQ sc → LookupOK sc k it →
      k ∉ m.map (fun q => q.2.key) → LookupOK (sc.loadItems m) k it := by
  intro m
  induction m with
  | nil => intro sc _ hl _; exact hl
  | cons p t ih =>
    intro sc hq hl hk
    rw [List.map_cons] at hk
    have h1 : p.2.key ≠ k := fun hc => hk (by rw [hc]; exact List.mem_cons_self _ _)
    have h2 : k ∉ t.map (fun q => q.2.key) := fun hc => hk (List.mem_cons_of_mem _ hc)
    exact ih (sc.loadStep p) (LoadQ_step hq p) (lookupOK_step_other hq hl p h1) h2

/-- After loading a dump with pairwise distinct item keys into any cache
satisfying `LoadQ`, every dumped item is retrievable under its key. -/
theorem loadItems_lookup_all :
    ∀ (m : List (String × Item)) (sc : ShardedCache), LoadQ sc →
      (m.map (fun q => q.2.key)).Nodup →
      ∀ q ∈ m, LookupOK (sc.loadItems m) q.2.key q.2 := by
  intro m
  induction m with
  | nil => intro sc _ _ q hq; cases hq
  | cons p t ih =>
    intro sc hq hnd q hqm
    rw [List.map_cons, List.nodup_cons] at hnd
    have hstep : sc.loadItems (p :: t) = (sc.loadStep p).loadItems t := rfl
    rw [hstep]
    rcases List.mem_cons.mp hqm with rfl | hqt
    · exact lookupOK_loadItems_preserved t (sc.loadStep q) (LoadQ_step hq q)
        (lookupOK_step_self hq q) hnd.1
    · exact ih (sc.loadStep p) (LoadQ_step hq p) hnd.2 q hqt

/-- A retrievable unexpired item is what `Get` returns. -/
theorem Get_of_LookupOK {sc : ShardedCache} {k : String} {it : Item} (now : Int)
    (hl : LookupOK sc k it) (hexp : ¬(it.expiration > 0 ∧ now > it.expiration)) :
    (sc.Get k now).1 = some it.value := by
  obtain ⟨sh, hsh, id, hget, e, hfind, hit⟩ := hl
  rw [ShardedCache.Get, hsh]
  show (sh.get k now).1 = some it.value
  rw [Shard.get]
  simp only [hget, hfind]
  rw [if_neg (hit ▸ hexp)]
  show some e.it.value = some it.value
  rw [hit]

/-- Every pair the snapshot collects is keyed by its item's own key
(`itemsToSave[it.Key] = it`). -/
theorem snapshot_key_consistent (sc : ShardedCache) :
    ∀ q ∈ sc.snapshotItems, q.1 = q.2.key := by
  rw [snapshot_eq]
  refine alPutAll_prop _ [] (fun q hq => absurd hq (List.not_mem_nil q)) ?_
  intro q hq
  rw [List.mem_flatten] at hq
  obtain ⟨l, hl, hql⟩ := hq
  obtain ⟨sh, _, rfl⟩ := List.mem_map.mp hl
  rw [shardPairs, List.mem_filterMap] at hql
  obtain ⟨p, _, hpq⟩ := hql
  cases hf : sh.ll.find? (fun x => x.id == p.2) with
  | none => rw [hf] at hpq; cases hpq
  | some e2 =>
    rw [hf] at hpq
    have hpq' : some (e2.it.key, e2.it) = some q := hpq
    rw [← Option.some_inj.mp hpq']

/-- The snapshot's keys are pairwise distinct, also when read off the
items themselves. -/
theorem snapshot_itemKeys_nodup (sc : ShardedCache) :
    (sc.snapshotItems.map (fun q => q.2.key)).Nodup := by
  have h1 : (sc.snapshotItems.map Prod.fst).Nodup := by
    rw [snapshot_eq]
    exact alPutAll_keys_nodup _ [] List.nodup_nil
  have h2 : sc.snapshotItems.map (fun q => q.2.key) = sc.snapshotItems.map Prod.fst := by
    apply List.map_congr_left
    intro q hq
    exact (snapshot_key_consistent sc q hq).symm
  rw [h2]
  exact h1

/-- In a well-formed cache the snapshot is faithful: every live element
appears in the collected mapping under its key, with its full item. -/
theorem snapshot_lookup {sc : ShardedCache} (hwf : CacheWF sc) {i : Nat} {sh : Shard} {e : Elem}
    (hsh : sc.shards[i]? = some sh) (he : e ∈ sh.ll) :
    alGet sc.snapshotItems e.it.key = some e.it := by
  obtain ⟨hlen, hpos, hwfsh, hown⟩ := hwf
  rw [snapshot_eq]
  have hshmem : sh ∈ sc.shards := mem_of_getElem? hsh
  obtain ⟨hids, hkeys, _, _, _, hlli, _⟩ := hwfsh sh hshmem
  have hmem : (e.it.key, e.it) ∈ (sc.shards.map shardPairs).flatten := by
    rw [List.mem_flatten]
    refine ⟨shardPairs sh, List.mem_map.mpr ⟨sh, hshmem, rfl⟩, ?_⟩
    rw [shardPairs, List.mem_filterMap]
    refine ⟨(e.it.key, e.id), alGet_mem (hlli e he), ?_⟩
    have hf : sh.ll.find? (fun x => x.id == (e.it.key, e.id).2) = some e :=
      find?_eq_of_mem_nodup hids he
    rw [hf]
    rfl
  have huniq : ∀ q ∈ (sc.shards.map shardPairs).flatten, q.1 = e.it.key → q.2 = e.it := by
    intro q hq hqk
    rw [List.mem_flatten] at hq
    obtain ⟨l, hl, hql⟩ := hq
    obtain ⟨sh2, hsh2mem, rfl⟩ := List.mem_map.mp hl
    rw [shardPairs, List.mem_filterMap] at hql
    obtain ⟨p, hp, hpq⟩ := hql
    cases hf : sh2.ll.find? (fun x => x.id == p.2) with
    | none => rw [hf] at hpq; cases hpq
    | some e2 =>
      rw [hf] at hpq
      have hpq' : some (e2.it.key, e2.it) = some q := hpq
      have hq2 : q = (e2.it.key, e2.it) := (Option.some_inj.mp hpq').symm
      have he2mem : e2 ∈ sh2.ll := List.mem_of_find?_eq_some hf
      obtain ⟨i2, hi2, hgi2⟩ := List.getElem_of_mem hsh2mem
      have hsh2get : sc.shards[i2]? = some sh2 := by
        rw [List.getElem?_eq_getElem hi2, hgi2]
      have hkeyeq : e2.it.key = e.it.key := by rw [hq2] at hqk; exact hqk
      have hi2eq : i2 = i := by
        have h1 := hown i2 sh2 hsh2get e2 he2mem
        have h2 := hown i sh hsh e he
        rw [hkeyeq] at h1
        omega
      subst hi2eq
      have hsheq : sh2 = sh := Option.some_inj.mp (hsh2get.symm.trans hsh)
      subst hsheq
      rw [hq2, elem_key_inj hkeys he2mem he hkeyeq]
  exact alGet_alPutAll_unique _ [] huniq hmem

/-- Every value the snapshot collects comes from a live element, so a
state whose live values are all registered has a registered snapshot. -/
theorem snapshot_registered {sc : ShardedCache}
    (h : ∀ sh ∈ sc.shards, ∀ e ∈ sh.ll, gobRegistered e.it.value = true) :
    ∀ q ∈ sc.snapshotItems, gobRegistered q.2.value = true := by
  rw [snapshot_eq]
  refine alPutAll_prop _ [] (fun q hq => absurd hq (List.not_mem_nil q)) ?_
  intro q hq
  rw [List.mem_flatten] at hq
  obtain ⟨l, hl, hql⟩ := hq
  obtain ⟨sh, hshm, rfl⟩ := List.mem_map.mp hl
  rw [shardPairs, List.mem_filterMap] at hql
  obtain ⟨p, _, hpq⟩ := hql
  cases hf : sh.ll.find? (fun x => x.id == p.2) with
  | none => rw [hf] at hpq; cases hpq
  | some e2 =>
    rw [hf] at hpq
    have hpq' : some (e2.it.key, e2.it) = some q := hpq
    rw [← Option.some_inj.mp hpq']
    exact h sh hshm e2 (List.mem_of_find?_eq_some hf)

/-- Claim C4, counterexample: the round trip does not hold for every
in-memory state.  The library `Set` accepts any `interface{}` value,
the repository never calls `gob.Register`, and gob refuses to encode an
interface value of an unregistered concrete type — so `SaveToFile` on a
cache holding one such value returns gob's registration error and
produces no dump at all. -/
theorem C4_counterexample :
    ((NewShardedCache 1 10).Set "x" .vother 0 100).SaveToFile
      = .error "type not registered for interface" := by rfl

/-- Claim C4, amended: the round trip holds for every well-formed state
whose stored values have gob-registered concrete types — which covers
every integer variant (`int64` as stored by `incr` and the protocol's
integer `SET`s, `int`, `int32`) and every string, these being in
`encoding/gob`'s own pre-registered table — but not for arbitrary
states, where an unregistered value makes `SaveToFile` return gob's
type-registration error instead of a dump.  On registered states
`SaveToFile` succeeds, its dump loads into any empty cache, `Get` then
returns every unexpired stored value verbatim (variant included), and
the encoding round-trips: `decode (encode M) = M` whenever the encoder
accepts `M`. -/
theorem C4 (sc sc0 : ShardedCache) (now : Int) (hwf : CacheWF sc) (hempty : EmptyCache sc0)
    (hreg : ∀ sh ∈ sc.shards, ∀ e ∈ sh.ll, gobRegistered e.it.value = true) :
    (∀ M f, encodeDump M = .ok f → decodeDump f = some M) ∧
    ∃ file, sc.SaveToFile = .ok file ∧
      ∃ sc', sc0.LoadFromFile file = some sc' ∧
        ∀ (i : Nat) (sh : Shard) (e : Elem), sc.shards[i]? = some sh → e ∈ sh.ll →
          ¬(e.it.expiration > 0 ∧ now > e.it.expiration) →
          (sc'.Get e.it.key now).1 = some e.it.value := by
  obtain ⟨file, hfile⟩ := encodeDump_ok sc.snapshotItems (snapshot_registered hreg)
  refine ⟨decodeDump_encodeDump, file, hfile, sc0.loadItems sc.snapshotItems, ?_, ?_⟩
  · rw [ShardedCache.LoadFromFile, decodeDump_encodeDump sc.snapshotItems file hfile]
    rfl
  · intro i sh e hsh he hexp
    have hal : alGet sc.snapshotItems e.it.key = some e.it := snapshot_lookup hwf hsh he
    have hlk : LookupOK (sc0.loadItems sc.snapshotItems) e.it.key e.it :=
      loadItems_lookup_all sc.snapshotItems sc0 (LoadQ_of_empty hempty)
        (snapshot_itemKeys_nodup sc) (e.it.key, e.it) (alGet_mem hal)
    exact Get_of_LookupOK now hlk hexp

/-- A concrete one-shard source cache holding the single entry
`"a" ↦ int64 7`, never expiring. -/
def c4src : ShardedCache :=
  ⟨[Shard.mk [("a", 0)] [⟨0, ⟨"a", .vint64 7, 0⟩⟩] 10 1 false], 1⟩

/-- Claim C4, witness: the one-entry `int64` source cache is saved and
loaded into a fresh empty two-shard cache; the save succeeds (`int64`
is pre-registered) and every entry (here `"a" ↦ int64 7`) reads back
with its value and variant intact at instant 5. -/
theorem C4_witness :
    CacheWF c4src ∧ EmptyCache (NewShardedCache 2 10) ∧
    (∀ sh ∈ c4src.shards, ∀ e ∈ sh.ll, gobRegistered e.it.value = true) ∧
    ∃ file, c4src.SaveToFile = .ok file ∧
      ∃ sc', (NewShardedCache 2 10).LoadFromFile file = some sc' ∧
        ∀ (i : Nat) (sh : Shard) (e : Elem), c4src.shards[i]? = some sh → e ∈ sh.ll →
          ¬(e.it.expiration > 0 ∧ (5 : Int) > e.it.expiration) →
          (sc'.Get e.it.key 5).1 = some e.it.value := by
  have hwf : CacheWF c4src := by
    refine ⟨rfl, Nat.one_pos, ?_, ?_⟩
    · intro sh hsh
      rcases List.mem_cons.mp hsh with rfl | hf
      · decide
      · cases hf
    · intro i sh h e he
      have hi : i < 1 := by
        by_contra hge
        rw [List.getElem?_eq_none (Nat.le_of_not_lt hge)] at h
        cases h
      have hi0 : i = 0 := Nat.lt_one_iff.mp hi
      subst hi0
      rcases List.mem_cons.mp (mem_of_getElem? h) with rfl | hf
      · rcases List.mem_cons.mp he with rfl | hf2
        · decide
        · cases hf2
      · cases hf
  have hempty : EmptyCache (NewShardedCache 2 10) :=
    ⟨by decide, by decide, by decide⟩
  have hreg : ∀ sh ∈ c4src.shards, ∀ e ∈ sh.ll, gobRegistered e.it.value = true := by decide
  obtain ⟨hrt, file, hfile, sc', hload, hget⟩ :=
    C4 c4src (NewShardedCache 2 10) 5 hwf hempty hreg
  exact ⟨hwf, hempty, hreg, file, hfile, sc', hload, hget⟩

end GoCache
